import Mathlib

/-!
Shallow embedding of `src/cutejson.cpp` (CuteJson).

The C++ core is a single recursive-descent parser
`Parse(std::string_view) -> std::pair<JsonObject, size_t>` over a tagged
union `JsonObject`.  Strings are modelled as `List Char`; `size_t` counts
as `Nat`; the fallible numeric conversions return `Option`.

Modelling notes, each tied to the line of `cutejson.cpp` it embeds:

* line 89: `json.find_first_not_of(" \n\r\t\v\f\0")` calls the
  `const char*` overload, which measures the set with `Traits::length`;
  the trailing `\0` therefore truncates the literal and the whitespace
  set is exactly the six characters space, LF, CR, TAB, VT, FF
  (NUL is *not* in the set).  `isWs` embeds the truncated set.
* line 98: `std::regex_search` is unanchored: it finds the *leftmost*
  position at which the ECMAScript regex
  `[+-]?[0-9]+(\.[0-9]*)?([eE][+-]?[0-9]+)?` matches, and with this
  regex the match at that position is the greedy (longest) one.
  `matchNumAt` embeds the anchored greedy match, `regexSearchNum`
  the leftmost search.  The code then uses only `match.str()`
  (never `match.position()`), which `regexSearchNum` mirrors by
  returning only the matched text.
* lines 50-57: `std::from_chars` for `int` accepts an optional `'-'`
  (never `'+'`) followed by decimal digits and fails on overflow of the
  32-bit `int`; `tryParseInt` embeds this including the range check.
  `std::from_chars` for `double` likewise rejects a leading `'+'`;
  `tryParseDouble` embeds its decimal grammar together with its
  `result_out_of_range` failure, decided exactly on the literal's
  rational value: the conversion fails iff the correctly rounded
  binary64 result is infinite (value at least `2^1024 - 2^970`) or,
  for a nonzero literal, zero (value at most `2^-1075`) — see
  `dblOutOfRange`.  Since no claim inspects the numeric value of an
  accepted `double`, the `double` payload is represented by the
  accepted numeral text itself.
* lines 153 and 181/193: `json[i]` with `i == json.size()` is an
  out-of-bounds read of the `string_view` (undefined behaviour in C++).
  The embedding completes it deterministically as reading NUL — which is
  what a run on a NUL-terminated buffer observes, and NUL compares
  unequal to `','`/`':'` — and additionally *records* every such access
  in a Boolean flag, exposed as `ParseOOB`.
* The parser is embedded as a fuel-indexed interpreter `ParseF` (fuel is
  consumed at every recursive `Parse` call and at every iteration of the
  list/dict loops), plus the proof `parseF_main` that fuel
  `json.length + 1` always suffices; `Parse` runs `ParseF` at that fuel.
-/

/-- NUL character (written via `Char.ofNat` to keep escapes out of literals). -/
def nulChar : Char := Char.ofNat 0

/-- Vertical tab. -/
def vtChar : Char := Char.ofNat 11

/-- Form feed. -/
def ffChar : Char := Char.ofNat 12

/-- Opening curly brace character. -/
def lbrace : Char := Char.ofNat 123

/-- Closing curly brace character. -/
def rbrace : Char := Char.ofNat 125

/-- The whitespace set actually used at line 89 of `cutejson.cpp`:
the string literal `" \n\r\t\v\f\0"` passed to the `const char*` overload of
`find_first_not_of` is truncated at the embedded NUL, so the set is the six
characters space, LF, CR, TAB, VT, FF. -/
def isWs (c : Char) : Bool :=
  (c == ' ') || (c == '\n') || (c == '\r') || (c == '\t') || (c == vtChar) || (c == ffChar)

/-- ASCII decimal digit test, as in the regex class `[0-9]` and the guard
`'0' <= json[0] && json[0] <= '9'` (line 95). -/
def isDigit (c : Char) : Bool :=
  decide ('0' ≤ c) && decide (c ≤ '9')

/-- Sign character, as in the regex class `[+-]`. -/
def isSign (c : Char) : Bool :=
  (c == '+') || (c == '-')

/-- Guard of the numeral branch (line 95):
`'0' <= json[0] && json[0] <= '9' || json[0] == '+' || json[0] == '-'`. -/
def isNumStart (c : Char) : Bool :=
  isDigit c || (c == '+') || (c == '-')

/-- `find_first_not_of` over the (truncated) whitespace set, line 89.
`none` plays the role of `npos`. -/
def findFirstNotOf : List Char → Option Nat
  | [] => none
  | c :: t => if isWs c then (findFirstNotOf t).map (· + 1) else some 0

/-- The escape table `UnescapedChar` (lines 59-80 of `cutejson.cpp`). -/
def UnescapedChar (c : Char) : Char :=
  if c = 'n' then '\n'
  else if c = 'r' then '\r'
  else if c = '0' then nulChar
  else if c = 't' then '\t'
  else if c = 'v' then vtChar
  else if c = 'f' then ffChar
  else if c = 'b' then Char.ofNat 8
  else if c = 'a' then Char.ofNat 7
  else c

/-- The string-literal scan loop (lines 112-133): two phases Raw/Escaped
(`true` = Escaped), returning the decoded content and the number of
characters consumed *after* the opening quote (the closing quote, when
found, is consumed). -/
def strLoop : List Char → Bool → List Char × Nat
  | [], _ => ([], 0)
  | c :: t, false =>
    if c = '\\' then
      let r := strLoop t true
      (r.1, r.2 + 1)
    else if c = '"' then ([], 1)
    else
      let r := strLoop t false
      (c :: r.1, r.2 + 1)
  | c :: t, true =>
    let r := strLoop t false
    (UnescapedChar c :: r.1, r.2 + 1)

/-- One-step unfolding of the Raw phase of `strLoop`. -/
theorem strLoop_cons_false (c : Char) (t : List Char) :
    strLoop (c :: t) false =
      if c = '\\' then ((strLoop t true).1, (strLoop t true).2 + 1)
      else if c = '"' then ([], 1)
      else (c :: (strLoop t false).1, (strLoop t false).2 + 1) := rfl

/-- One-step unfolding of the Escaped phase of `strLoop`. -/
theorem strLoop_cons_true (c : Char) (t : List Char) :
    strLoop (c :: t) true =
      (UnescapedChar c :: (strLoop t false).1, (strLoop t false).2 + 1) := rfl

/-- Greedy (ECMAScript) match of the optional exponent part
`([eE][+-]?[0-9]+)?` at the head of `l`: the matched text
(empty when the group does not participate). -/
def matchExpAt : List Char → List Char
  | [] => []
  | e :: t =>
    if (e == 'e') || (e == 'E') then
      match t with
      | [] => []
      | s :: t2 =>
        if isSign s then
          if t2.takeWhile isDigit = [] then [] else e :: s :: t2.takeWhile isDigit
        else
          if t.takeWhile isDigit = [] then [] else e :: t.takeWhile isDigit
    else []

/-- Greedy match of the optional fraction-then-exponent part
`(\.[0-9]*)?([eE][+-]?[0-9]+)?` at the head of `l`. -/
def matchFracExpAt : List Char → List Char
  | [] => []
  | c :: t =>
    if c = '.' then
      c :: (t.takeWhile isDigit ++ matchExpAt (t.drop (t.takeWhile isDigit).length))
    else matchExpAt (c :: t)

/-- Greedy anchored match of `[+-]?[0-9]+(\.[0-9]*)?([eE][+-]?[0-9]+)?`
at the head of `l` : `some` of the matched text, `none` when the regex
does not match at position 0. -/
def matchNumAt : List Char → Option (List Char)
  | [] => none
  | c :: t =>
    if isSign c then
      if t.takeWhile isDigit = [] then none
      else some (c :: (t.takeWhile isDigit ++ matchFracExpAt (t.drop (t.takeWhile isDigit).length)))
    else
      if (c :: t).takeWhile isDigit = [] then none
      else some ((c :: t).takeWhile isDigit ++
        matchFracExpAt ((c :: t).drop ((c :: t).takeWhile isDigit).length))

/-- `std::regex_search` over the whole remaining input (line 98): the text of
the leftmost match of the numeral regex, `none` when no position matches.
The starting position of the match is discarded, exactly as the C++ code
discards it by reading only `match.str()`. -/
def regexSearchNum : List Char → Option (List Char)
  | [] => none
  | c :: t =>
    match matchNumAt (c :: t) with
    | some p => some p
    | none => regexSearchNum t

/-- Numeric value of a digit string. -/
def digitsToNat (l : List Char) : Nat :=
  l.foldl (fun a c => a * 10 + (c.toNat - '0'.toNat)) 0

/-- `TryParseNum<int>` (lines 49-57): `std::from_chars` for `int` consumes an
optional `'-'` (a leading `'+'` is rejected) followed by decimal digits, fails
with `result_out_of_range` outside the 32-bit `int` range, and `TryParseNum`
additionally requires the whole string to be consumed (`res.ptr == end`). -/
def tryParseInt (s : List Char) : Option Int :=
  let p : Bool × List Char :=
    match s with
    | '-' :: t => (true, t)
    | _ => (false, s)
  let neg := p.1
  let ds := p.2
  if ds ≠ [] ∧ ds.all isDigit then
    let v : Int := if neg then -(digitsToNat ds : Int) else (digitsToNat ds : Int)
    if -2147483648 ≤ v ∧ v ≤ 2147483647 then some v else none
  else none

/-- Exponent part of the `std::from_chars` floating-point grammar:
empty, or `e`/`E`, optional sign, one or more digits. -/
def floatExpOk : List Char → Bool
  | [] => true
  | e :: t =>
    ((e == 'e') || (e == 'E')) &&
      (match t with
       | c :: t2 => if isSign c then decide (t2 ≠ []) && t2.all isDigit else decide (t ≠ []) && t.all isDigit
       | [] => false)

/-- Mantissa-and-exponent body of the `std::from_chars` floating-point
grammar (`chars_format::general`): digits with an optional point (at least
one digit overall), then an optional exponent. -/
def floatBody (s : List Char) : Bool :=
  let d1 := s.takeWhile isDigit
  let r1 := s.drop d1.length
  match r1 with
  | '.' :: t =>
    let d2 := t.takeWhile isDigit
    (decide (d1 ≠ []) || decide (d2 ≠ [])) && floatExpOk (t.drop d2.length)
  | _ => decide (d1 ≠ []) && floatExpOk r1

/-- Decimal components of the (unsigned) body of a floating literal in the
`floatBody` grammar: the concatenated mantissa digits (integer part then
fraction part) and the power-of-ten exponent that scales them, i.e. the
exact value of the literal is `digitsToNat mantissa * 10 ^ e10`.
For `"1.25e2"` this is `("125", 0)`; for `"1e999"` it is `("1", 999)`. -/
def mantissaDigits (s : List Char) : List Char × Int :=
  let d1 := s.takeWhile isDigit
  let r1 := s.drop d1.length
  let d2 : List Char :=
    match r1 with
    | '.' :: t => t.takeWhile isDigit
    | _ => []
  let r2 : List Char :=
    match r1 with
    | '.' :: t => t.drop (t.takeWhile isDigit).length
    | _ => r1
  let ex : Int :=
    match r2 with
    | _ :: t =>
      (match t with
       | c2 :: t2 =>
         if c2 = '-' then -(digitsToNat t2 : Int)
         else if c2 = '+' then (digitsToNat t2 : Int)
         else (digitsToNat t : Int)
       | [] => 0)
    | [] => 0
  (d1 ++ d2, ex - d2.length)

/-- The `result_out_of_range` condition of `std::from_chars` for `double`
on a `floatBody`-conforming literal, decided on the *exact* decimal value
`M * 10 ^ e10` (the sign is irrelevant, the range is symmetric): the
conversion fails exactly when the correctly rounded (round-to-nearest,
ties-to-even) binary64 result is infinite or — for a nonzero value — zero.

* Overflow: `DBL_MAX = 2^1024 - 2^971` and the ulp of the top binade is
  `2^971`, so the rounded result is `+inf` iff the exact value is at least
  the midpoint `2^1024 - 2^970` (the tie itself rounds up to infinity).
* Underflow: the smallest subnormal is `2^-1074`, so a nonzero value rounds
  to zero iff it is at most the midpoint `2^-1075` (the tie rounds to the
  even candidate, zero).  A value that rounds to a nonzero subnormal is
  returned as a success.

All comparisons are carried out on integers by clearing the power of ten
to the appropriate side. -/
def dblOutOfRange (s : List Char) : Bool :=
  let M := digitsToNat (mantissaDigits s).1
  let e10 := (mantissaDigits s).2
  if M = 0 then false
  else
    ((if 0 ≤ e10 then decide ((2 ^ 1024 - 2 ^ 970) ≤ M * 10 ^ e10.toNat)
      else decide ((2 ^ 1024 - 2 ^ 970) * 10 ^ (-e10).toNat ≤ M)) ||
     (if 0 ≤ e10 then decide (M * 10 ^ e10.toNat * 2 ^ 1075 ≤ 1)
      else decide (M * 2 ^ 1075 ≤ 10 ^ (-e10).toNat)))

/-- `TryParseNum<double>` (lines 49-57): `std::from_chars` for `double`
consumes an optional `'-'` (a leading `'+'` is rejected) and the decimal
grammar of `floatBody`; the whole string must be consumed, and a value
whose correctly rounded binary64 result is infinite or (from a nonzero
literal) zero fails with `result_out_of_range` — see `dblOutOfRange`.
Since no claim inspects the numeric value of an accepted `double`, the
accepted text itself is returned as the payload. -/
def tryParseDouble (s : List Char) : Option (List Char) :=
  match s with
  | '-' :: t => if floatBody t && !(dblOutOfRange t) then some s else none
  | _ => if floatBody s && !(dblOutOfRange s) then some s else none

/-- The value model: `std::variant<std::nullptr_t, bool, int, double,
std::string, JsonList, JsonDict>` (line 25).  `JsonList` is
`std::vector<JsonObject>`; `JsonDict` maps `std::string` keys to values and
is modelled as an insertion-ordered association list (its iteration order is
unspecified in the source; only membership and first-write-wins insertion
are observable to the claims).  The `double` payload carries the accepted
numeral text (see module comment). -/
inductive JsonObject where
  | null : JsonObject
  | bool : Bool → JsonObject
  | int : Int → JsonObject
  | double : List Char → JsonObject
  | str : List Char → JsonObject
  | list : List JsonObject → JsonObject
  | dict : List (List Char × JsonObject) → JsonObject

/-- `holds_alternative<std::nullptr_t>` / `is<std::nullptr_t>()`. -/
def JsonObject.isNull : JsonObject → Bool
  | .null => true
  | _ => false

/-- `res.try_emplace(key, value)` (line 192): insert only when the key is
not already present — an existing entry is never overwritten. -/
def tryEmplace (d : List (List Char × JsonObject)) (k : List Char) (v : JsonObject) :
    List (List Char × JsonObject) :=
  match d.lookup k with
  | some _ => d
  | none => d ++ [(k, v)]

/-- The list-parsing loop (lines 138-156).  `p` is the recursive parser on
suffixes, the `Nat` fuel bounds the number of loop iterations (each executed
iteration advances `i` by at least one, so `json.length` iterations always
suffice — proved below), `i` is the scan position, `acc` the elements
collected so far and `fl` the out-of-bounds-access flag.  Returns
`(elements, final i, flag)`; `none` only on fuel exhaustion.
The read `json[i]` at line 153 is performed even when `i = json.size()`;
this out-of-bounds read is completed as NUL and recorded in the flag. -/
def listLoopF (p : List Char → Option ((JsonObject × Nat) × Bool)) (json : List Char) :
    Nat → Nat → List JsonObject → Bool → Option (List JsonObject × Nat × Bool)
  | 0, i, acc, fl => if i < json.length then none else some (acc, i, fl)
  | lf + 1, i, acc, fl =>
    if h : i < json.length then
      if json[i] = ']' then some (acc, i + 1, fl)
      else
        match p (json.drop i) with
        | none => none
        | some ((obj, eaten), fl1) =>
          if eaten = 0 then some (acc, 0, fl || fl1)
          else
            listLoopF p json lf
              (if json.getD (i + eaten) nulChar = ',' then i + eaten + 1 else i + eaten)
              (acc ++ [obj])
              (fl || fl1 || decide (json.length ≤ i + eaten))
    else some (acc, i, fl)

/-- Tail of one dict-loop iteration after a string key was parsed ending at
position `i1`: skip `':'` if present (line 181), parse the value at the
resulting position, on success insert with `try_emplace` (line 192), skip
`','` if present (line 193) and hand the new position, accumulator and
out-of-bounds flag to the loop continuation `cont`.  Split out of
`dictLoopF` only to name the intermediate position; together they embed the
loop body of lines 163-196. -/
def dictStepF (p : List Char → Option ((JsonObject × Nat) × Bool)) (json : List Char)
    (cont : Nat → List (List Char × JsonObject) → Bool →
      Option (List (List Char × JsonObject) × Nat × Bool))
    (i1 : Nat) (acc : List (List Char × JsonObject)) (key : List Char) (fl : Bool) :
    Option (List (List Char × JsonObject) × Nat × Bool) :=
  match p (json.drop (if json.getD i1 nulChar = ':' then i1 + 1 else i1)) with
  | none => none
  | some ((valObj, valEaten), fl3) =>
    if valEaten = 0 then some (acc, 0, fl || fl3)
    else
      cont
        (if json.getD ((if json.getD i1 nulChar = ':' then i1 + 1 else i1) + valEaten) nulChar = ','
         then (if json.getD i1 nulChar = ':' then i1 + 1 else i1) + valEaten + 1
         else (if json.getD i1 nulChar = ':' then i1 + 1 else i1) + valEaten)
        (tryEmplace acc key valObj)
        (fl || fl3 ||
          decide (json.length ≤ (if json.getD i1 nulChar = ':' then i1 + 1 else i1) + valEaten))

/-- The dict-parsing loop (lines 161-196), analogous to `listLoopF`.
A failed key sub-parse, a non-string key, or a failed value sub-parse exits
with `i = 0`, keeping the entries accumulated so far in the returned dict.
The reads `json[i]` at lines 181 and 193 are performed even when
`i = json.size()`; they are completed as NUL and recorded in the flag. -/
def dictLoopF (p : List Char → Option ((JsonObject × Nat) × Bool)) (json : List Char) :
    Nat → Nat → List (List Char × JsonObject) → Bool →
      Option (List (List Char × JsonObject) × Nat × Bool)
  | 0, i, acc, fl => if i < json.length then none else some (acc, i, fl)
  | lf + 1, i, acc, fl =>
    if h : i < json.length then
      if json[i] = rbrace then some (acc, i + 1, fl)
      else
        match p (json.drop i) with
        | none => none
        | some ((keyObj, keyEaten), fl1) =>
          if keyEaten = 0 then some (acc, 0, fl || fl1)
          else
            match keyObj with
            | JsonObject.str key =>
              dictStepF p json (dictLoopF p json lf) (i + keyEaten) acc key
                (fl || fl1 || decide (json.length ≤ i + keyEaten))
            | _ => some (acc, 0, fl || fl1)
    else some (acc, i, fl)

/-- Dispatch on the first significant character (lines 95-199), for an input
whose leading whitespace has already been ruled out.  `p` is the recursive
parser applied to proper suffixes. -/
def parseCore (p : List Char → Option ((JsonObject × Nat) × Bool)) (json : List Char) :
    Option ((JsonObject × Nat) × Bool) :=
  match json with
  | [] => some ((JsonObject.null, 0), false)
  | c :: rest =>
    if isNumStart c then
      match regexSearchNum json with
      | none => some ((JsonObject.null, 0), false)
      | some m =>
        match tryParseInt m with
        | some v => some ((JsonObject.int v, m.length), false)
        | none =>
          match tryParseDouble m with
          | some d => some ((JsonObject.double d, m.length), false)
          | none => some ((JsonObject.null, 0), false)
    else if c = '"' then
      let r := strLoop rest false
      some ((JsonObject.str r.1, 1 + r.2), false)
    else if c = '[' then
      (listLoopF p json json.length 1 [] false).map
        (fun r => ((JsonObject.list r.1, r.2.1), r.2.2))
    else if c = lbrace then
      (dictLoopF p json json.length 1 [] false).map
        (fun r => ((JsonObject.dict r.1, r.2.1), r.2.2))
    else some ((JsonObject.null, 0), false)

/-- Fuel-indexed embedding of `Parse` (lines 82-200).  One unit of fuel is
spent per recursive call; `parseF_main` below shows `json.length + 1` fuel
always suffices, so `none` is the out-of-fuel marker only.  The result is
`((value, consumedCount), oobFlag)`. -/
def ParseF : Nat → List Char → Option ((JsonObject × Nat) × Bool)
  | 0, _ => none
  | _ + 1, [] => some ((JsonObject.null, 0), false)
  | fuel + 1, json@(_ :: _) =>
    if (findFirstNotOf json).getD 0 ≠ 0 then
      (ParseF fuel (json.drop ((findFirstNotOf json).getD 0))).map
        (fun r => ((r.1.1, r.1.2 + (findFirstNotOf json).getD 0), r.2))
    else parseCore (ParseF fuel) json

/-- `Parse` of `cutejson.cpp`: run `ParseF` with sufficient fuel and return
the `(JsonObject, size_t)` pair. -/
def Parse (json : List Char) : JsonObject × Nat :=
  ((ParseF (json.length + 1) json).getD ((JsonObject.null, 0), false)).1

/-- Whether the run of `Parse` performed an out-of-bounds read of its input
slice (the `json[i]` comparisons against `','`/`':'` with `i = json.size()`). -/
def ParseOOB (json : List Char) : Bool :=
  ((ParseF (json.length + 1) json).getD ((JsonObject.null, 0), false)).2

/-! ### Basic facts about the character classes and `findFirstNotOf` -/

theorem isWs_cases {c : Char} (h : isWs c = true) :
    c = ' ' ∨ c = '\n' ∨ c = '\r' ∨ c = '\t' ∨ c = vtChar ∨ c = ffChar := by
  simp only [isWs, Bool.or_eq_true, beq_iff_eq] at h
  tauto

theorem ws_guards {c : Char} (h : isWs c = true) :
    isNumStart c = false ∧ c ≠ '"' ∧ c ≠ '[' ∧ c ≠ lbrace := by
  rcases isWs_cases h with rfl | rfl | rfl | rfl | rfl | rfl <;>
    exact ⟨by decide, by decide, by decide, by decide⟩

theorem numStart_not_ws {c : Char} (h : isNumStart c = true) : isWs c = false := by
  cases hws : isWs c with
  | false => rfl
  | true => rw [(ws_guards hws).1] at h; cases h

theorem ffno_lt_length : ∀ {l : List Char} {k : Nat}, findFirstNotOf l = some k → k < l.length := by
  intro l
  induction l with
  | nil => intro k h; simp [findFirstNotOf] at h
  | cons c t ih =>
    intro k h
    simp only [findFirstNotOf] at h
    by_cases hc : isWs c
    · rw [if_pos hc] at h
      cases ht : findFirstNotOf t with
      | none => rw [ht] at h; simp at h
      | some m =>
        rw [ht] at h
        simp only [Option.map_some', Option.some.injEq] at h
        have := ih ht
        simp only [List.length_cons]
        omega
    · rw [if_neg hc] at h
      simp only [Option.some.injEq] at h
      simp only [List.length_cons]
      omega

theorem ffno_none_iff : ∀ {l : List Char}, findFirstNotOf l = none ↔ ∀ c ∈ l, isWs c = true := by
  intro l
  induction l with
  | nil => simp [findFirstNotOf]
  | cons c t ih =>
    simp only [findFirstNotOf, List.mem_cons]
    by_cases hc : isWs c
    · rw [if_pos hc]
      constructor
      · intro h x hx
        rcases hx with rfl | hx
        · exact hc
        · exact ih.mp (by cases ht : findFirstNotOf t <;> simp [ht] at h ⊢) x hx
      · intro h
        rw [ih.mpr (fun x hx => h x (Or.inr hx))]
        rfl
    · rw [if_neg hc]
      constructor
      · intro h; cases h
      · intro h
        exact absurd (h c (Or.inl rfl)) hc

theorem ffno_ws_append (w s : List Char) (hw : ∀ c ∈ w, isWs c = true) :
    findFirstNotOf (w ++ s) = (findFirstNotOf s).map (· + w.length) := by
  induction w with
  | nil =>
    simp only [List.nil_append, List.length_nil]
    cases findFirstNotOf s <;> simp
  | cons c w ih =>
    have hc : isWs c = true := hw c (List.mem_cons_self c w)
    have hw2 : ∀ x ∈ w, isWs x = true := fun x hx => hw x (List.mem_cons_of_mem c hx)
    show findFirstNotOf (c :: (w ++ s)) = _
    rw [findFirstNotOf, if_pos hc, ih hw2]
    cases findFirstNotOf s with
    | none => rfl
    | some m =>
      simp only [Option.map_some', Option.some.injEq, List.length_cons]
      omega

/-! ### Facts about `List.drop` over append, and prefixes -/

theorem drop_append_general : ∀ (l r : List Char) (k : Nat),
    (l ++ r).drop k = l.drop k ++ r.drop (k - l.length) := by
  intro l
  induction l with
  | nil => intro r k; simp
  | cons c l ih =>
    intro r k
    cases k with
    | zero => simp
    | succ k =>
      simp only [List.cons_append, List.drop_succ_cons, ih, List.length_cons]
      have : k + 1 - (l.length + 1) = k - l.length := by omega
      rw [this]

theorem isPre_drop {l1 l2 : List Char} (h : l1 <+: l2) (k : Nat) : l1.drop k <+: l2.drop k := by
  obtain ⟨r, rfl⟩ := h
  rw [drop_append_general]
  exact ⟨r.drop (k - l1.length), rfl⟩

/-! ### The loops depend on the sub-parser only at proper suffixes, and
terminate within `json.length` iterations -/

theorem listLoopF_congr {p q : List Char → Option ((JsonObject × Nat) × Bool)} {json : List Char}
    (hpq : ∀ k, 1 ≤ k → p (json.drop k) = q (json.drop k)) :
    ∀ (lf i : Nat) (acc : List JsonObject) (fl : Bool), 1 ≤ i →
      listLoopF p json lf i acc fl = listLoopF q json lf i acc fl := by
  intro lf
  induction lf with
  | zero => intro i acc fl _; rfl
  | succ lf ih =>
    intro i acc fl hi
    simp only [listLoopF]
    by_cases h : i < json.length
    · rw [dif_pos h, dif_pos h]
      by_cases hb : json[i] = ']'
      · rw [if_pos hb, if_pos hb]
      · rw [if_neg hb, if_neg hb, hpq i hi]
        cases hq : q (json.drop i) with
        | none => rfl
        | some r =>
          obtain ⟨⟨obj, eaten⟩, fl1⟩ := r
          dsimp only
          by_cases he : eaten = 0
          · rw [if_pos he, if_pos he]
          · rw [if_neg he, if_neg he]
            exact ih _ _ _ (by split <;> omega)
    · rw [dif_neg h, dif_neg h]

theorem listLoopF_total {p : List Char → Option ((JsonObject × Nat) × Bool)} {json : List Char}
    (hp : ∀ k, 1 ≤ k → (p (json.drop k)).isSome = true) :
    ∀ (lf i : Nat) (acc : List JsonObject) (fl : Bool), 1 ≤ i → json.length - i ≤ lf →
      (listLoopF p json lf i acc fl).isSome = true := by
  intro lf
  induction lf with
  | zero =>
    intro i acc fl hi hlf
    rw [listLoopF, if_neg (by omega)]
    rfl
  | succ lf ih =>
    intro i acc fl hi hlf
    simp only [listLoopF]
    by_cases h : i < json.length
    · rw [dif_pos h]
      by_cases hb : json[i] = ']'
      · rw [if_pos hb]; rfl
      · rw [if_neg hb]
        cases hq : p (json.drop i) with
        | none =>
          have hx := hp i hi
          rw [hq] at hx
          simp at hx
        | some r =>
          obtain ⟨⟨obj, eaten⟩, fl1⟩ := r
          dsimp only
          by_cases he : eaten = 0
          · rw [if_pos he]; rfl
          · rw [if_neg he]
            exact ih _ _ _ (by split <;> omega) (by split <;> omega)
    · rw [dif_neg h]; rfl

theorem dictLoopF_congr {p q : List Char → Option ((JsonObject × Nat) × Bool)} {json : List Char}
    (hpq : ∀ k, 1 ≤ k → p (json.drop k) = q (json.drop k)) :
    ∀ (lf i : Nat) (acc : List (List Char × JsonObject)) (fl : Bool), 1 ≤ i →
      dictLoopF p json lf i acc fl = dictLoopF q json lf i acc fl := by
  intro lf
  induction lf with
  | zero => intro i acc fl _; rfl
  | succ lf ih =>
    intro i acc fl hi
    simp only [dictLoopF]
    by_cases h : i < json.length
    · rw [dif_pos h, dif_pos h]
      by_cases hb : json[i] = rbrace
      · rw [if_pos hb, if_pos hb]
      · rw [if_neg hb, if_neg hb, hpq i hi]
        cases hq : q (json.drop i) with
        | none => rfl
        | some r =>
          obtain ⟨⟨keyObj, keyEaten⟩, fl1⟩ := r
          dsimp only
          by_cases he : keyEaten = 0
          · rw [if_pos he, if_pos he]
          · rw [if_neg he, if_neg he]
            cases keyObj with
            | str key =>
              simp only [dictStepF]
              rw [hpq (if json.getD (i + keyEaten) nulChar = ':' then i + keyEaten + 1
                       else i + keyEaten) (by split <;> omega)]
              cases hv : q (json.drop
                  (if json.getD (i + keyEaten) nulChar = ':' then i + keyEaten + 1
                   else i + keyEaten)) with
              | none => rfl
              | some r2 =>
                obtain ⟨⟨valObj, valEaten⟩, fl3⟩ := r2
                dsimp only
                by_cases hv0 : valEaten = 0
                · rw [if_pos hv0, if_pos hv0]
                · rw [if_neg hv0, if_neg hv0]
                  exact ih _ _ _ (by split <;> split <;> omega)
            | null => rfl
            | bool b => rfl
            | int v => rfl
            | double d => rfl
            | list l => rfl
            | dict d => rfl
    · rw [dif_neg h, dif_neg h]

theorem dictLoopF_total {p : List Char → Option ((JsonObject × Nat) × Bool)} {json : List Char}
    (hp : ∀ k, 1 ≤ k → (p (json.drop k)).isSome = true) :
    ∀ (lf i : Nat) (acc : List (List Char × JsonObject)) (fl : Bool), 1 ≤ i →
      json.length - i ≤ lf → (dictLoopF p json lf i acc fl).isSome = true := by
  intro lf
  induction lf with
  | zero =>
    intro i acc fl hi hlf
    rw [dictLoopF, if_neg (by omega)]
    rfl
  | succ lf ih =>
    intro i acc fl hi hlf
    simp only [dictLoopF]
    by_cases h : i < json.length
    · rw [dif_pos h]
      by_cases hb : json[i] = rbrace
      · rw [if_pos hb]; rfl
      · rw [if_neg hb]
        cases hq : p (json.drop i) with
        | none =>
          have hx := hp i hi
          rw [hq] at hx
          simp at hx
        | some r =>
          obtain ⟨⟨keyObj, keyEaten⟩, fl1⟩ := r
          dsimp only
          by_cases he : keyEaten = 0
          · rw [if_pos he]; rfl
          · rw [if_neg he]
            cases keyObj with
            | str key =>
              simp only [dictStepF]
              cases hv : p (json.drop
                  (if json.getD (i + keyEaten) nulChar = ':' then i + keyEaten + 1
                   else i + keyEaten)) with
              | none =>
                have hx := hp (if json.getD (i + keyEaten) nulChar = ':' then i + keyEaten + 1
                    else i + keyEaten) (by split <;> omega)
                rw [hv] at hx
                simp at hx
              | some r2 =>
                obtain ⟨⟨valObj, valEaten⟩, fl3⟩ := r2
                dsimp only
                by_cases hv0 : valEaten = 0
                · rw [if_pos hv0]; rfl
                · rw [if_neg hv0]
                  exact ih _ _ _ (by split <;> split <;> omega) (by split <;> split <;> omega)
            | null => rfl
            | bool b => rfl
            | int v => rfl
            | double d => rfl
            | list l => rfl
            | dict d => rfl
    · rw [dif_neg h]; rfl

theorem parseCore_congr {p q : List Char → Option ((JsonObject × Nat) × Bool)} {json : List Char}
    (hpq : ∀ k, 1 ≤ k → p (json.drop k) = q (json.drop k)) :
    parseCore p json = parseCore q json := by
  cases json with
  | nil => rfl
  | cons c rest =>
    simp only [parseCore]
    by_cases h1 : isNumStart c = true
    · rw [if_pos h1, if_pos h1]
    · rw [if_neg h1, if_neg h1]
      by_cases h2 : c = '"'
      · rw [if_pos h2, if_pos h2]
      · rw [if_neg h2, if_neg h2]
        by_cases h3 : c = '['
        · rw [if_pos h3, if_pos h3, listLoopF_congr hpq _ _ _ _ (le_refl 1)]
        · rw [if_neg h3, if_neg h3]
          by_cases h4 : c = lbrace
          · rw [if_pos h4, if_pos h4, dictLoopF_congr hpq _ _ _ _ (le_refl 1)]
          · rw [if_neg h4, if_neg h4]

theorem parseCore_total {p : List Char → Option ((JsonObject × Nat) × Bool)} {json : List Char}
    (hp : ∀ k, 1 ≤ k → (p (json.drop k)).isSome = true) :
    (parseCore p json).isSome = true := by
  cases json with
  | nil => rfl
  | cons c rest =>
    simp only [parseCore]
    by_cases h1 : isNumStart c = true
    · rw [if_pos h1]
      cases hm : regexSearchNum (c :: rest) with
      | none => rfl
      | some m =>
        dsimp only
        cases tryParseInt m with
        | some v => rfl
        | none =>
          dsimp only
          cases tryParseDouble m with
          | some d => rfl
          | none => rfl
    · rw [if_neg h1]
      by_cases h2 : c = '"'
      · rw [if_pos h2]; rfl
      · rw [if_neg h2]
        by_cases h3 : c = '['
        · rw [if_pos h3, Option.isSome_map']
          exact listLoopF_total hp _ 1 [] false (le_refl 1) (Nat.sub_le _ _)
        · rw [if_neg h3]
          by_cases h4 : c = lbrace
          · rw [if_pos h4, Option.isSome_map']
            exact dictLoopF_total hp _ 1 [] false (le_refl 1) (Nat.sub_le _ _)
          · rw [if_neg h4]; rfl

/-! ### Fuel `json.length + 1` is sufficient, and the result does not depend
on any surplus fuel -/

theorem parseF_main :
    ∀ n : Nat, ∀ json : List Char, json.length = n → ∀ f : Nat, n < f →
      ParseF f json = ParseF (n + 1) json ∧ (ParseF f json).isSome = true := by
  intro n
  induction n using Nat.strong_induction_on with
  | _ n ih =>
    intro json hn f hf
    obtain ⟨g, rfl⟩ : ∃ g, f = g + 1 := ⟨f - 1, by omega⟩
    cases json with
    | nil =>
      subst hn
      exact ⟨rfl, rfl⟩
    | cons c rest =>
      subst hn
      have hg : rest.length + 1 ≤ g := by
        simp only [List.length_cons] at hf
        omega
      have hcongr : ∀ k, 1 ≤ k →
          ParseF g ((c :: rest).drop k) = ParseF (c :: rest).length ((c :: rest).drop k) := by
        intro k hk
        have hdlen : ((c :: rest).drop k).length = (c :: rest).length - k :=
          List.length_drop k (c :: rest)
        have hlt : ((c :: rest).drop k).length < (c :: rest).length := by
          rw [hdlen]
          simp only [List.length_cons]
          omega
        have e1 := (ih _ hlt ((c :: rest).drop k) rfl g
          (by simp only [List.length_cons] at hlt ⊢; omega)).1
        have e2 := (ih _ hlt ((c :: rest).drop k) rfl (c :: rest).length hlt).1
        rw [e1, e2]
      have htotal : ∀ k, 1 ≤ k → (ParseF g ((c :: rest).drop k)).isSome = true := by
        intro k hk
        have hdlen : ((c :: rest).drop k).length = (c :: rest).length - k :=
          List.length_drop k (c :: rest)
        have hlt : ((c :: rest).drop k).length < (c :: rest).length := by
          rw [hdlen]
          simp only [List.length_cons]
          omega
        exact (ih _ hlt ((c :: rest).drop k) rfl g
          (by simp only [List.length_cons] at hlt ⊢; omega)).2
      have hcore : parseCore (ParseF g) (c :: rest) =
            parseCore (ParseF (c :: rest).length) (c :: rest) ∧
          (parseCore (ParseF g) (c :: rest)).isSome = true :=
        ⟨parseCore_congr hcongr, parseCore_total htotal⟩
      simp only [ParseF]
      cases hOff : findFirstNotOf (c :: rest) with
      | none =>
        simp only [Option.getD_none, ne_eq, not_true_eq_false, if_neg, if_false]
        exact hcore
      | some off =>
        cases off with
        | zero =>
          simp only [Option.getD_some, ne_eq, not_true_eq_false, if_neg, if_false]
          exact hcore
        | succ off1 =>
          simp only [Option.getD_some, ne_eq]
          rw [if_pos (by omega), if_pos (by omega)]
          constructor
          · rw [hcongr (off1 + 1) (by omega)]
          · rw [Option.isSome_map']
            exact htotal (off1 + 1) (by omega)

theorem parseF_run (json : List Char) {f : Nat} (hf : json.length < f) :
    ParseF f json = some ((Parse json, ParseOOB json)) := by
  have h1 := (parseF_main json.length json rfl f hf).1
  have h2 := (parseF_main json.length json rfl (json.length + 1) (by omega)).2
  rw [h1]
  unfold Parse ParseOOB
  cases h : ParseF (json.length + 1) json with
  | none => rw [h] at h2; simp at h2
  | some r => simp only [Option.getD_some]

/-! ### Branch-level characterisations of `Parse` -/

theorem parse_ws {json : List Char} {off : Nat} (h : findFirstNotOf json = some (off + 1)) :
    Parse json = ((Parse (json.drop (off + 1))).1, (Parse (json.drop (off + 1))).2 + (off + 1)) ∧
    ParseOOB json = ParseOOB (json.drop (off + 1)) := by
  have hlt := ffno_lt_length h
  cases json with
  | nil => simp [findFirstNotOf] at h
  | cons c rest =>
    have hrun := parseF_run ((c :: rest).drop (off + 1)) (f := (c :: rest).length)
      (by rw [List.length_drop]; simp only [List.length_cons] at hlt ⊢; omega)
    have e1 := parseF_run (c :: rest) (f := (c :: rest).length + 1) (by omega)
    have e2 : ParseF ((c :: rest).length + 1) (c :: rest) =
        some (((Parse ((c :: rest).drop (off + 1))).1,
               (Parse ((c :: rest).drop (off + 1))).2 + (off + 1)),
              ParseOOB ((c :: rest).drop (off + 1))) := by
      simp only [ParseF]
      rw [h]
      simp only [Option.getD_some, ne_eq]
      rw [if_pos (by omega), hrun]
      rfl
    rw [e1] at e2
    injection e2 with e3
    simp only [Prod.mk.injEq] at e3
    exact e3

theorem parse_of_core {json : List Char} (h : (findFirstNotOf json).getD 0 = 0)
    {r : (JsonObject × Nat) × Bool} (hc : parseCore (ParseF json.length) json = some r) :
    Parse json = r.1 ∧ ParseOOB json = r.2 := by
  cases json with
  | nil =>
    simp only [parseCore] at hc
    injection hc with hc
    subst hc
    exact ⟨rfl, rfl⟩
  | cons c rest =>
    have e1 := parseF_run (c :: rest) (f := (c :: rest).length + 1) (by omega)
    have e2 : ParseF ((c :: rest).length + 1) (c :: rest) = some r := by
      simp only [ParseF]
      rw [if_neg (by simp [h])]
      exact hc
    rw [e1] at e2
    injection e2 with e2
    exact ⟨congrArg Prod.fst e2, congrArg Prod.snd e2⟩

theorem parse_allWs {s : List Char} (h : ∀ c ∈ s, isWs c = true) :
    Parse s = (JsonObject.null, 0) := by
  cases s with
  | nil => rfl
  | cons c rest =>
    have hffno : findFirstNotOf (c :: rest) = none := ffno_none_iff.mpr h
    have hc : isWs c = true := h c (List.mem_cons_self c rest)
    obtain ⟨hg1, hg2, hg3, hg4⟩ := ws_guards hc
    have hcore : parseCore (ParseF (c :: rest).length) (c :: rest) =
        some ((JsonObject.null, 0), false) := by
      simp only [parseCore]
      rw [if_neg (by simp [hg1]), if_neg hg2, if_neg hg3, if_neg hg4]
    exact (parse_of_core (by rw [hffno]; rfl) hcore).1

/-! ### The string branch on inputs with no closing unescaped quote -/

/-- Specification-side predicate: scanning `l` in the Raw/Escaped automaton
of the string branch never meets a closing (unescaped) `'"'` — a backslash
makes the following character literal. -/
def noUnescQuote : List Char → Bool
  | [] => true
  | [c] => if c = '\\' then true else if c = '"' then false else true
  | c :: c2 :: t2 =>
    if c = '\\' then noUnescQuote t2
    else if c = '"' then false
    else noUnescQuote (c2 :: t2)

/-- Specification-side escape decoding of a whole scanned tail: a backslash
decodes the next character through the escape table, everything else is
taken verbatim (a trailing lone backslash contributes nothing). -/
def decodeAll : List Char → List Char
  | [] => []
  | [c] => if c = '\\' then [] else [c]
  | c :: c2 :: t2 =>
    if c = '\\' then UnescapedChar c2 :: decodeAll t2
    else c :: decodeAll (c2 :: t2)

theorem strLoop_no_close :
    ∀ (n : Nat) (l : List Char), l.length = n → noUnescQuote l = true →
      strLoop l false = (decodeAll l, l.length) := by
  intro n
  induction n using Nat.strong_induction_on with
  | _ n ih =>
    intro l hn h
    cases l with
    | nil => rfl
    | cons c t =>
      by_cases hb : c = '\\'
      · subst hb
        cases t with
        | nil => rfl
        | cons c2 t2 =>
          have ht2 : noUnescQuote t2 = true := h
          have ih2 := ih t2.length (by subst hn; simp only [List.length_cons]; omega) t2 rfl ht2
          show ((strLoop (c2 :: t2) true).1, (strLoop (c2 :: t2) true).2 + 1) = _
          rw [strLoop_cons_true, ih2]
          rfl
      · by_cases hq : c = '"'
        · subst hq
          cases t with
          | nil => exact Bool.noConfusion h
          | cons c2 t2 => exact Bool.noConfusion h
        · cases t with
          | nil =>
            rw [strLoop_cons_false, if_neg hb, if_neg hq]
            show _ = (if c = '\\' then [] else [c], 1)
            rw [if_neg hb]
            rfl
          | cons c2 t2 =>
            have ht : noUnescQuote (c2 :: t2) = true := by
              have e : noUnescQuote (c :: c2 :: t2) =
                  (if c = '\\' then noUnescQuote t2
                   else if c = '"' then false else noUnescQuote (c2 :: t2)) := rfl
              rw [e, if_neg hb, if_neg hq] at h
              exact h
            have ih2 := ih (c2 :: t2).length (by subst hn; simp only [List.length_cons]; omega)
              (c2 :: t2) rfl ht
            rw [strLoop_cons_false, if_neg hb, if_neg hq, ih2]
            have e2 : decodeAll (c :: c2 :: t2) =
                (if c = '\\' then UnescapedChar c2 :: decodeAll t2
                 else c :: decodeAll (c2 :: t2)) := rfl
            rw [e2, if_neg hb]
            rfl

/-! ### The numeral grammar, specification side: whole-string conformance to
`[+-]?digits(.digits?)?([eE][+-]?digits)?`, and maximality of the greedy
match -/

/-- Whole-string acceptor for the optional exponent `([eE][+-]?digits)?`:
empty, or `e`/`E` followed by an optional sign and one or more digits. -/
def expPart : List Char → Bool
  | [] => true
  | e :: t =>
    ((e == 'e') || (e == 'E')) &&
      (match t with
       | [] => false
       | s :: t2 =>
         if isSign s then decide (t2 ≠ []) && t2.all isDigit
         else decide (t ≠ []) && t.all isDigit)

/-- Whole-string acceptor for `(\.digits*)?([eE][+-]?digits)?`. -/
def fracExpPart : List Char → Bool
  | [] => true
  | c :: t =>
    if c = '.' then expPart (t.drop (t.takeWhile isDigit).length)
    else expPart (c :: t)

/-- Whole-string acceptor for `digits(.digits?)?([eE][+-]?digits)?`
(what must follow an optional sign). -/
def numBody (r : List Char) : Bool :=
  decide (r.takeWhile isDigit ≠ []) && fracExpPart (r.drop (r.takeWhile isDigit).length)

/-- Specification-side conformance of a whole string to the numeral regex
`[+-]?digits(.digits?)?([eE][+-]?digits)?`. -/
def conformsNum : List Char → Bool
  | [] => false
  | c :: t => if isSign c then numBody t else numBody (c :: t)

theorem takeWhile_isPre (p : Char → Bool) (l : List Char) : l.takeWhile p <+: l :=
  ⟨l.dropWhile p, List.takeWhile_append_dropWhile p l⟩

/-- A prefix's digit run is a prefix of the longer list's digit run; moreover
if it is strictly shorter, the prefix ends inside the digit run (nothing of
it remains after its own digit run). -/
theorem digit_run_le : ∀ (tq t : List Char), tq <+: t →
    tq.takeWhile isDigit <+: t.takeWhile isDigit ∧
    ((tq.takeWhile isDigit).length < (t.takeWhile isDigit).length →
      tq.drop (tq.takeWhile isDigit).length = []) := by
  intro tq
  induction tq with
  | nil => intro t h; exact ⟨⟨_, rfl⟩, fun _ => rfl⟩
  | cons a tq2 ih =>
    intro t h
    obtain ⟨r, rfl⟩ := h
    by_cases hd : isDigit a
    · rw [List.cons_append, List.takeWhile_cons_of_pos hd, List.takeWhile_cons_of_pos hd]
      obtain ⟨ih1, ih2⟩ := ih (tq2 ++ r) ⟨r, rfl⟩
      refine ⟨List.cons_prefix_cons.mpr ⟨rfl, ih1⟩, ?_⟩
      intro hlt
      simp only [List.length_cons] at hlt
      have h2 := ih2 (by omega)
      simpa [List.length_cons, List.drop_succ_cons] using h2
    · rw [List.cons_append, List.takeWhile_cons_of_neg hd, List.takeWhile_cons_of_neg hd]
      exact ⟨⟨_, rfl⟩, fun h2 => absurd h2 (by simp)⟩

theorem isPre_length {q l : List Char} (h : q <+: l) : q.length ≤ l.length := by
  obtain ⟨r, rfl⟩ := h
  rw [List.length_append]
  omega

theorem isPre_ne {q l : List Char} (h : q <+: l) (hne : q ≠ []) : l ≠ [] := by
  obtain ⟨r, rfl⟩ := h
  cases q with
  | nil => cases hne rfl
  | cons a t => simp

theorem allDigit_takeWhile_self {l : List Char} (h : l.all isDigit = true) :
    l.takeWhile isDigit = l :=
  List.takeWhile_eq_self_iff.mpr (fun x hx => List.all_eq_true.mp h x hx)

theorem drop_len_takeWhile (p : Char → Bool) : ∀ l : List Char,
    l.drop (l.takeWhile p).length = l.dropWhile p := by
  intro l
  induction l with
  | nil => rfl
  | cons c t ih =>
    by_cases h : p c
    · rw [List.takeWhile_cons_of_pos h, List.dropWhile_cons_of_pos h, List.length_cons,
        List.drop_succ_cons]
      exact ih
    · rw [List.takeWhile_cons_of_neg h, List.dropWhile_cons_of_neg h]
      rfl

theorem digit_not_sign {c : Char} (h : isDigit c = true) : isSign c = false := by
  cases hs : isSign c with
  | false => rfl
  | true =>
    have : c = '+' ∨ c = '-' := by simpa [isSign] using hs
    rcases this with rfl | rfl <;> exact Bool.noConfusion h

theorem digit_not_dot {c : Char} (h : isDigit c = true) : c ≠ '.' := by
  intro he
  subst he
  exact Bool.noConfusion h

theorem digit_not_e {c : Char} (h : isDigit c = true) : ((c == 'e') || (c == 'E')) = false := by
  cases he : ((c == 'e') || (c == 'E')) with
  | false => rfl
  | true =>
    have : c = 'e' ∨ c = 'E' := by simpa using he
    rcases this with rfl | rfl <;> exact Bool.noConfusion h

/-- No conforming exponent continuation is longer than the greedy one. -/
theorem expPart_le (l q : List Char) (hq : q <+: l) (hc : expPart q = true) :
    q.length ≤ (matchExpAt l).length := by
  cases q with
  | nil => exact Nat.zero_le _
  | cons e tq =>
    obtain ⟨r, rfl⟩ := hq
    rw [List.cons_append]
    cases tq with
    | nil =>
      have e1 : expPart [e] = (((e == 'e') || (e == 'E')) && false) := rfl
      rw [e1, Bool.and_false] at hc
      exact Bool.noConfusion hc
    | cons s t2 =>
      have e1 : expPart (e :: s :: t2) =
          (((e == 'e') || (e == 'E')) &&
            (if isSign s then decide (t2 ≠ []) && t2.all isDigit
             else decide ((s :: t2) ≠ []) && (s :: t2).all isDigit)) := rfl
      rw [e1, Bool.and_eq_true] at hc
      obtain ⟨he, hc2⟩ := hc
      rw [List.cons_append]
      have e2 : matchExpAt (e :: s :: (t2 ++ r)) =
          (if (e == 'e') || (e == 'E') then
            (if isSign s then
              (if (t2 ++ r).takeWhile isDigit = [] then []
               else e :: s :: (t2 ++ r).takeWhile isDigit)
             else
              (if (s :: (t2 ++ r)).takeWhile isDigit = [] then []
               else e :: (s :: (t2 ++ r)).takeWhile isDigit)) else []) := rfl
      rw [e2, if_pos he]
      by_cases hs : isSign s = true
      · rw [if_pos hs] at hc2 ⊢
        rw [Bool.and_eq_true, decide_eq_true_eq] at hc2
        obtain ⟨ht2ne, ht2d⟩ := hc2
        have hpre : t2 <+: (t2 ++ r).takeWhile isDigit := by
          have := (digit_run_le t2 (t2 ++ r) ⟨r, rfl⟩).1
          rwa [allDigit_takeWhile_self ht2d] at this
        rw [if_neg (isPre_ne hpre ht2ne)]
        have := isPre_length hpre
        simp only [List.length_cons]
        omega
      · rw [if_neg hs] at hc2 ⊢
        rw [Bool.and_eq_true, decide_eq_true_eq] at hc2
        obtain ⟨hstne, hstd⟩ := hc2
        have hpre : s :: t2 <+: (s :: (t2 ++ r)).takeWhile isDigit := by
          have := (digit_run_le (s :: t2) (s :: (t2 ++ r)) ?_).1
          · rwa [allDigit_takeWhile_self hstd] at this
          · exact ⟨r, by rw [List.cons_append]⟩
        rw [if_neg (isPre_ne hpre hstne)]
        have := isPre_length hpre
        simp only [List.length_cons] at this ⊢
        omega

/-- No conforming fraction-exponent continuation is longer than the greedy
one. -/
theorem fracExpPart_le (l q : List Char) (hq : q <+: l) (hc : fracExpPart q = true) :
    q.length ≤ (matchFracExpAt l).length := by
  cases q with
  | nil => exact Nat.zero_le _
  | cons c tq =>
    obtain ⟨r, rfl⟩ := hq
    rw [List.cons_append]
    by_cases hdot : c = '.'
    · subst hdot
      have e1 : fracExpPart ('.' :: tq) =
          expPart (tq.drop (tq.takeWhile isDigit).length) := rfl
      rw [e1] at hc
      have e2 : matchFracExpAt ('.' :: (tq ++ r)) =
          '.' :: (tq ++ r).takeWhile isDigit ++
            matchExpAt ((tq ++ r).drop ((tq ++ r).takeWhile isDigit).length) := rfl
      rw [e2]
      obtain ⟨hd1, hd2⟩ := digit_run_le tq (tq ++ r) ⟨r, rfl⟩
      have hdqle : (tq.takeWhile isDigit).length ≤ tq.length :=
        isPre_length (takeWhile_isPre _ _)
      have hfs := isPre_length hd1
      rcases Nat.lt_or_ge (tq.takeWhile isDigit).length ((tq ++ r).takeWhile isDigit).length
        with hlt | hge
      · have hrest := hd2 hlt
        have h1 : tq.length ≤ (tq.takeWhile isDigit).length := by
          have hh := congrArg List.length hrest
          rw [List.length_drop] at hh
          simp only [List.length_nil] at hh
          omega
        simp only [List.length_cons, List.length_append]
        omega
      · have heq : (tq.takeWhile isDigit).length = ((tq ++ r).takeWhile isDigit).length := by
          omega
        have hdrop2 : tq.drop (tq.takeWhile isDigit).length <+:
            (tq ++ r).drop ((tq ++ r).takeWhile isDigit).length := by
          rw [← heq]
          exact isPre_drop ⟨r, rfl⟩ _
        have hexp := expPart_le _ _ hdrop2 hc
        have hlen1 : (tq.drop (tq.takeWhile isDigit).length).length =
            tq.length - (tq.takeWhile isDigit).length := List.length_drop _ _
        simp only [List.length_cons, List.length_append]
        omega
    · have e1 : fracExpPart (c :: tq) =
          (if c = '.' then expPart (tq.drop (tq.takeWhile isDigit).length)
           else expPart (c :: tq)) := rfl
      rw [e1, if_neg hdot] at hc
      have e2 : matchFracExpAt (c :: (tq ++ r)) =
          (if c = '.' then
            c :: (tq ++ r).takeWhile isDigit ++
              matchExpAt ((tq ++ r).drop ((tq ++ r).takeWhile isDigit).length)
           else matchExpAt (c :: (tq ++ r))) := rfl
      rw [e2, if_neg hdot]
      exact expPart_le _ _ (List.cons_prefix_cons.mpr ⟨rfl, ⟨r, rfl⟩⟩) hc

theorem matchExpAt_isPre : ∀ l : List Char, matchExpAt l <+: l := by
  intro l
  cases l with
  | nil => exact ⟨[], rfl⟩
  | cons e t =>
    have e1 : matchExpAt (e :: t) =
        (if (e == 'e') || (e == 'E') then
          (match t with
           | [] => []
           | s :: t2 =>
             if isSign s then
               if t2.takeWhile isDigit = [] then [] else e :: s :: t2.takeWhile isDigit
             else
               if t.takeWhile isDigit = [] then [] else e :: t.takeWhile isDigit)
         else []) := rfl
    rw [e1]
    by_cases he : ((e == 'e') || (e == 'E')) = true
    · rw [if_pos he]
      cases t with
      | nil => exact ⟨_, rfl⟩
      | cons s t2 =>
        dsimp only
        by_cases hs : isSign s = true
        · rw [if_pos hs]
          by_cases h0 : t2.takeWhile isDigit = []
          · rw [if_pos h0]; exact ⟨_, rfl⟩
          · rw [if_neg h0]
            exact List.cons_prefix_cons.mpr
              ⟨rfl, List.cons_prefix_cons.mpr ⟨rfl, takeWhile_isPre _ _⟩⟩
        · rw [if_neg hs]
          by_cases h0 : (s :: t2).takeWhile isDigit = []
          · rw [if_pos h0]; exact ⟨_, rfl⟩
          · rw [if_neg h0]
            exact List.cons_prefix_cons.mpr ⟨rfl, takeWhile_isPre _ _⟩
    · rw [if_neg he]; exact ⟨_, rfl⟩

/-- The greedy exponent match is empty or starts with `e`/`E`. -/
theorem matchExpAt_shape : ∀ l : List Char, matchExpAt l = [] ∨
    ∃ h t0, matchExpAt l = h :: t0 ∧ ((h == 'e') || (h == 'E')) = true := by
  intro l
  cases l with
  | nil => exact Or.inl rfl
  | cons e t =>
    have e1 : matchExpAt (e :: t) =
        (if (e == 'e') || (e == 'E') then
          (match t with
           | [] => []
           | s :: t2 =>
             if isSign s then
               if t2.takeWhile isDigit = [] then [] else e :: s :: t2.takeWhile isDigit
             else
               if t.takeWhile isDigit = [] then [] else e :: t.takeWhile isDigit)
         else []) := rfl
    rw [e1]
    by_cases he : ((e == 'e') || (e == 'E')) = true
    · rw [if_pos he]
      cases t with
      | nil => exact Or.inl rfl
      | cons s t2 =>
        dsimp only
        by_cases hs : isSign s = true
        · rw [if_pos hs]
          by_cases h0 : t2.takeWhile isDigit = []
          · rw [if_pos h0]; exact Or.inl rfl
          · rw [if_neg h0]; exact Or.inr ⟨e, _, rfl, he⟩
        · rw [if_neg hs]
          by_cases h0 : (s :: t2).takeWhile isDigit = []
          · rw [if_pos h0]; exact Or.inl rfl
          · rw [if_neg h0]; exact Or.inr ⟨e, _, rfl, he⟩
    · rw [if_neg he]; exact Or.inl rfl

/-- The greedy exponent match itself conforms to the exponent grammar. -/
theorem expPart_matchExpAt : ∀ l : List Char, expPart (matchExpAt l) = true := by
  intro l
  cases l with
  | nil => rfl
  | cons e t =>
    have e1 : matchExpAt (e :: t) =
        (if (e == 'e') || (e == 'E') then
          (match t with
           | [] => []
           | s :: t2 =>
             if isSign s then
               if t2.takeWhile isDigit = [] then [] else e :: s :: t2.takeWhile isDigit
             else
               if t.takeWhile isDigit = [] then [] else e :: t.takeWhile isDigit)
         else []) := rfl
    rw [e1]
    by_cases he : ((e == 'e') || (e == 'E')) = true
    · rw [if_pos he]
      cases t with
      | nil => rfl
      | cons s t2 =>
        dsimp only
        by_cases hs : isSign s = true
        · rw [if_pos hs]
          by_cases h0 : t2.takeWhile isDigit = []
          · rw [if_pos h0]; rfl
          · rw [if_neg h0]
            have e2 : expPart (e :: s :: t2.takeWhile isDigit) =
                (((e == 'e') || (e == 'E')) &&
                  (if isSign s then
                    decide (t2.takeWhile isDigit ≠ []) && (t2.takeWhile isDigit).all isDigit
                   else decide ((s :: t2.takeWhile isDigit) ≠ []) &&
                    (s :: t2.takeWhile isDigit).all isDigit)) := rfl
            rw [e2, he, if_pos hs, Bool.true_and, Bool.and_eq_true, decide_eq_true_eq]
            exact ⟨h0, List.all_takeWhile⟩
        · rw [if_neg hs]
          by_cases h0 : (s :: t2).takeWhile isDigit = []
          · rw [if_pos h0]; rfl
          · rw [if_neg h0]
            cases hw : (s :: t2).takeWhile isDigit with
            | nil => exact absurd hw h0
            | cons w tw2 =>
              have hwd : isDigit w = true :=
                List.mem_takeWhile_imp (by rw [hw]; exact List.mem_cons_self w tw2)
              have e2 : expPart (e :: w :: tw2) =
                  (((e == 'e') || (e == 'E')) &&
                    (if isSign w then decide (tw2 ≠ []) && tw2.all isDigit
                     else decide ((w :: tw2) ≠ []) && (w :: tw2).all isDigit)) := rfl
              rw [e2, he, if_neg (by rw [digit_not_sign hwd]; exact Bool.noConfusion),
                Bool.true_and, Bool.and_eq_true, decide_eq_true_eq]
              refine ⟨by simp, ?_⟩
              rw [← hw]
              exact List.all_takeWhile
    · rw [if_neg he]; rfl

theorem matchFracExpAt_isPre : ∀ l : List Char, matchFracExpAt l <+: l := by
  intro l
  cases l with
  | nil => exact ⟨[], rfl⟩
  | cons c t =>
    have e1 : matchFracExpAt (c :: t) =
        (if c = '.' then
          c :: (t.takeWhile isDigit ++ matchExpAt (t.drop (t.takeWhile isDigit).length))
         else matchExpAt (c :: t)) := rfl
    rw [e1]
    by_cases hdot : c = '.'
    · rw [if_pos hdot]
      refine List.cons_prefix_cons.mpr ⟨rfl, ?_⟩
      obtain ⟨x, hx⟩ := matchExpAt_isPre (t.drop (t.takeWhile isDigit).length)
      refine ⟨x, ?_⟩
      rw [List.append_assoc, hx, drop_len_takeWhile]
      exact List.takeWhile_append_dropWhile isDigit t
    · rw [if_neg hdot]
      exact matchExpAt_isPre (c :: t)

/-- The greedy fraction-exponent match is empty or starts with a non-digit
(`'.'`, `'e'` or `'E'`). -/
theorem matchFracExpAt_shape : ∀ l : List Char, matchFracExpAt l = [] ∨
    ∃ h t0, matchFracExpAt l = h :: t0 ∧ isDigit h = false := by
  intro l
  cases l with
  | nil => exact Or.inl rfl
  | cons c t =>
    have e1 : matchFracExpAt (c :: t) =
        (if c = '.' then
          c :: (t.takeWhile isDigit ++ matchExpAt (t.drop (t.takeWhile isDigit).length))
         else matchExpAt (c :: t)) := rfl
    rw [e1]
    by_cases hdot : c = '.'
    · rw [if_pos hdot]
      subst hdot
      exact Or.inr ⟨'.', _, rfl, by decide⟩
    · rw [if_neg hdot]
      rcases matchExpAt_shape (c :: t) with h | ⟨h0, t0, he, hch⟩
      · exact Or.inl h
      · refine Or.inr ⟨h0, t0, he, ?_⟩
        have : h0 = 'e' ∨ h0 = 'E' := by simpa using hch
        rcases this with rfl | rfl <;> decide

/-- The greedy fraction-exponent match itself conforms. -/
theorem fracExpPart_matchFracExpAt : ∀ l : List Char, fracExpPart (matchFracExpAt l) = true := by
  intro l
  cases l with
  | nil => rfl
  | cons c t =>
    have e1 : matchFracExpAt (c :: t) =
        (if c = '.' then
          c :: (t.takeWhile isDigit ++ matchExpAt (t.drop (t.takeWhile isDigit).length))
         else matchExpAt (c :: t)) := rfl
    rw [e1]
    by_cases hdot : c = '.'
    · rw [if_pos hdot]
      subst hdot
      have hXtw : (matchExpAt (t.drop (t.takeWhile isDigit).length)).takeWhile isDigit = [] := by
        rcases matchExpAt_shape (t.drop (t.takeWhile isDigit).length) with h | ⟨h0, t0, he, hch⟩
        · rw [h]; rfl
        · rw [he]
          have : h0 = 'e' ∨ h0 = 'E' := by simpa using hch
          rcases this with rfl | rfl <;>
            exact List.takeWhile_cons_of_neg (by decide)
      have e2 : fracExpPart ('.' :: (t.takeWhile isDigit ++
          matchExpAt (t.drop (t.takeWhile isDigit).length))) =
          expPart ((t.takeWhile isDigit ++
            matchExpAt (t.drop (t.takeWhile isDigit).length)).drop
            ((t.takeWhile isDigit ++
              matchExpAt (t.drop (t.takeWhile isDigit).length)).takeWhile isDigit).length) := rfl
      rw [e2, List.takeWhile_append_of_pos (fun a ha => List.mem_takeWhile_imp ha), hXtw,
        List.append_nil, List.drop_left]
      exact expPart_matchExpAt _
    · rw [if_neg hdot]
      rcases matchExpAt_shape (c :: t) with h | ⟨h0, t0, he, hch⟩
      · rw [h]; rfl
      · rw [he]
        have hne : h0 ≠ '.' := by
          have : h0 = 'e' ∨ h0 = 'E' := by simpa using hch
          rcases this with rfl | rfl <;> decide
        have e2 : fracExpPart (h0 :: t0) =
            (if h0 = '.' then expPart (t0.drop (t0.takeWhile isDigit).length)
             else expPart (h0 :: t0)) := rfl
        rw [e2, if_neg hne, ← he]
        exact expPart_matchExpAt _

/-- One-step unfolding of `matchNumAt` on a nonempty list. -/
theorem matchNumAt_cons (c : Char) (t : List Char) :
    matchNumAt (c :: t) =
      (if isSign c then
        (if t.takeWhile isDigit = [] then none
         else some (c :: (t.takeWhile isDigit ++
           matchFracExpAt (t.drop (t.takeWhile isDigit).length))))
       else
        (if (c :: t).takeWhile isDigit = [] then none
         else some ((c :: t).takeWhile isDigit ++
           matchFracExpAt ((c :: t).drop ((c :: t).takeWhile isDigit).length)))) := rfl

/-- The greedy numeral match is a prefix of the input and conforms to the
numeral grammar. -/
theorem matchNumAt_sound {l p0 : List Char} (h : matchNumAt l = some p0) :
    p0 <+: l ∧ conformsNum p0 = true := by
  cases l with
  | nil => cases h
  | cons c t =>
    rw [matchNumAt_cons] at h
    by_cases hs : isSign c = true
    · rw [if_pos hs] at h
      by_cases h0 : t.takeWhile isDigit = []
      · rw [if_pos h0] at h; cases h
      · rw [if_neg h0] at h
        injection h with h
        subst h
        constructor
        · refine List.cons_prefix_cons.mpr ⟨rfl, ?_⟩
          obtain ⟨x, hx⟩ := matchFracExpAt_isPre (t.drop (t.takeWhile isDigit).length)
          refine ⟨x, ?_⟩
          rw [List.append_assoc, hx, drop_len_takeWhile]
          exact List.takeWhile_append_dropWhile isDigit t
        · have hFtw : (matchFracExpAt (t.drop (t.takeWhile isDigit).length)).takeWhile
              isDigit = [] := by
            rcases matchFracExpAt_shape (t.drop (t.takeWhile isDigit).length) with
              hsh | ⟨h0c, t0, he, hch⟩
            · rw [hsh]; rfl
            · rw [he]
              exact List.takeWhile_cons_of_neg (by rw [hch]; exact Bool.noConfusion)
          have e2 : conformsNum (c :: (t.takeWhile isDigit ++
              matchFracExpAt (t.drop (t.takeWhile isDigit).length))) =
              (if isSign c then
                numBody (t.takeWhile isDigit ++
                  matchFracExpAt (t.drop (t.takeWhile isDigit).length))
               else numBody (c :: (t.takeWhile isDigit ++
                  matchFracExpAt (t.drop (t.takeWhile isDigit).length)))) := rfl
          rw [e2, if_pos hs, numBody,
            List.takeWhile_append_of_pos (fun a ha => List.mem_takeWhile_imp ha), hFtw,
            List.append_nil, Bool.and_eq_true, decide_eq_true_eq]
          refine ⟨h0, ?_⟩
          rw [List.drop_left]
          exact fracExpPart_matchFracExpAt _
    · rw [if_neg hs] at h
      by_cases h0 : (c :: t).takeWhile isDigit = []
      · rw [if_pos h0] at h; cases h
      · rw [if_neg h0] at h
        injection h with h
        subst h
        constructor
        · obtain ⟨x, hx⟩ := matchFracExpAt_isPre ((c :: t).drop ((c :: t).takeWhile isDigit).length)
          refine ⟨x, ?_⟩
          rw [List.append_assoc, hx, drop_len_takeWhile]
          exact List.takeWhile_append_dropWhile isDigit (c :: t)
        · set F := matchFracExpAt ((c :: t).drop ((c :: t).takeWhile isDigit).length) with hF
          have hFtw : F.takeWhile isDigit = [] := by
            rw [hF]
            rcases matchFracExpAt_shape ((c :: t).drop ((c :: t).takeWhile isDigit).length) with
              hsh | ⟨h0c, t0, he, hch⟩
            · rw [hsh]; rfl
            · rw [he]
              exact List.takeWhile_cons_of_neg (by rw [hch]; exact Bool.noConfusion)
          cases hw : (c :: t).takeWhile isDigit with
          | nil => exact absurd hw h0
          | cons w tw2 =>
            have hwd : isDigit w = true :=
              List.mem_takeWhile_imp (by rw [hw]; exact List.mem_cons_self w tw2)
            rw [List.cons_append]
            have e2 : conformsNum (w :: (tw2 ++ F)) =
                (if isSign w then numBody (tw2 ++ F) else numBody (w :: (tw2 ++ F))) := rfl
            rw [e2, if_neg (by rw [digit_not_sign hwd]; exact Bool.noConfusion),
              numBody, ← List.cons_append,
              List.takeWhile_append_of_pos
                (fun a ha => List.mem_takeWhile_imp (p := isDigit) (l := c :: t)
                  (by rw [hw]; exact ha)),
              hFtw, List.append_nil, Bool.and_eq_true, decide_eq_true_eq]
            refine ⟨by simp, ?_⟩
            rw [List.drop_left]
            exact fracExpPart_matchFracExpAt _

/-- No conforming prefix of the input is longer than the greedy numeral
match. -/
theorem matchNumAt_longest {l p0 : List Char} (h : matchNumAt l = some p0) :
    ∀ q, q <+: l → conformsNum q = true → q.length ≤ p0.length := by
  intro q hq hcq
  cases l with
  | nil => cases h
  | cons c t =>
    cases q with
    | nil => exact Nat.zero_le _
    | cons cq tq =>
      obtain ⟨r, hr⟩ := hq
      rw [List.cons_append] at hr
      injection hr with h1 h2
      subst h1
      have htq : tq <+: t := ⟨r, h2⟩
      have hq2 : (cq :: tq) <+: (cq :: t) := List.cons_prefix_cons.mpr ⟨rfl, htq⟩
      rw [matchNumAt_cons] at h
      have e2 : conformsNum (cq :: tq) =
          (if isSign cq then numBody tq else numBody (cq :: tq)) := rfl
      by_cases hs : isSign cq = true
      · rw [if_pos hs] at h
        rw [e2, if_pos hs, numBody, Bool.and_eq_true, decide_eq_true_eq] at hcq
        obtain ⟨hdqne, hfe⟩ := hcq
        by_cases h0 : t.takeWhile isDigit = []
        · rw [if_pos h0] at h; cases h
        · rw [if_neg h0] at h
          injection h with h
          subst h
          obtain ⟨hd1, hd2⟩ := digit_run_le tq t htq
          have hdqle : (tq.takeWhile isDigit).length ≤ tq.length :=
            isPre_length (takeWhile_isPre _ _)
          have hfs := isPre_length hd1
          rcases Nat.lt_or_ge (tq.takeWhile isDigit).length (t.takeWhile isDigit).length
            with hlt | hge
          · have hrest := hd2 hlt
            have h1 : tq.length ≤ (tq.takeWhile isDigit).length := by
              have hh := congrArg List.length hrest
              rw [List.length_drop] at hh
              simp only [List.length_nil] at hh
              omega
            simp only [List.length_cons, List.length_append]
            omega
          · have heq : (tq.takeWhile isDigit).length = (t.takeWhile isDigit).length := by
              omega
            have hdrop2 : tq.drop (tq.takeWhile isDigit).length <+:
                t.drop (t.takeWhile isDigit).length := by
              rw [← heq]
              exact isPre_drop htq _
            have hfrac := fracExpPart_le _ _ hdrop2 hfe
            have hlen1 : (tq.drop (tq.takeWhile isDigit).length).length =
                tq.length - (tq.takeWhile isDigit).length := List.length_drop _ _
            simp only [List.length_cons, List.length_append]
            omega
      · rw [if_neg hs] at h
        rw [e2, if_neg hs, numBody, Bool.and_eq_true, decide_eq_true_eq] at hcq
        obtain ⟨hdqne, hfe⟩ := hcq
        by_cases h0 : (cq :: t).takeWhile isDigit = []
        · rw [if_pos h0] at h; cases h
        · rw [if_neg h0] at h
          injection h with h
          subst h
          obtain ⟨hd1, hd2⟩ := digit_run_le (cq :: tq) (cq :: t) hq2
          have hdqle : ((cq :: tq).takeWhile isDigit).length ≤ (cq :: tq).length :=
            isPre_length (takeWhile_isPre _ _)
          have hfs := isPre_length hd1
          rcases Nat.lt_or_ge ((cq :: tq).takeWhile isDigit).length
            ((cq :: t).takeWhile isDigit).length with hlt | hge
          · have hrest := hd2 hlt
            have h1 : (cq :: tq).length ≤ ((cq :: tq).takeWhile isDigit).length := by
              have hh := congrArg List.length hrest
              rw [List.length_drop] at hh
              simp only [List.length_nil] at hh
              omega
            rw [List.length_append]
            omega
          · have heq : ((cq :: tq).takeWhile isDigit).length =
                ((cq :: t).takeWhile isDigit).length := by omega
            have hdrop2 : (cq :: tq).drop ((cq :: tq).takeWhile isDigit).length <+:
                (cq :: t).drop ((cq :: t).takeWhile isDigit).length := by
              rw [← heq]
              exact isPre_drop hq2 _
            have hfrac := fracExpPart_le _ _ hdrop2 hfe
            have hlen1 : ((cq :: tq).drop ((cq :: tq).takeWhile isDigit).length).length =
                (cq :: tq).length - ((cq :: tq).takeWhile isDigit).length := List.length_drop _ _
            rw [List.length_append]
            omega

/-- When the greedy numeral match fails, no nonempty prefix conforms. -/
theorem matchNumAt_none {l : List Char} (h : matchNumAt l = none) :
    ∀ q, q <+: l → conformsNum q = true → False := by
  intro q hq hcq
  cases l with
  | nil =>
    obtain ⟨r, hr⟩ := hq
    have : q = [] := by
      cases q with
      | nil => rfl
      | cons a b => cases hr
    subst this
    exact Bool.noConfusion hcq
  | cons c t =>
    cases q with
    | nil => exact Bool.noConfusion hcq
    | cons cq tq =>
      obtain ⟨r, hr⟩ := hq
      rw [List.cons_append] at hr
      injection hr with h1 h2
      subst h1
      have htq : tq <+: t := ⟨r, h2⟩
      have hq2 : (cq :: tq) <+: (cq :: t) := List.cons_prefix_cons.mpr ⟨rfl, htq⟩
      rw [matchNumAt_cons] at h
      have e2 : conformsNum (cq :: tq) =
          (if isSign cq then numBody tq else numBody (cq :: tq)) := rfl
      by_cases hs : isSign cq = true
      · rw [if_pos hs] at h
        rw [e2, if_pos hs, numBody, Bool.and_eq_true, decide_eq_true_eq] at hcq
        obtain ⟨hdqne, -⟩ := hcq
        by_cases h0 : t.takeWhile isDigit = []
        · cases tq with
          | nil => exact hdqne rfl
          | cons a tq2 =>
            have had : isDigit a = true := by
              by_cases had : isDigit a
              · exact had
              · rw [List.takeWhile_cons_of_neg had] at hdqne
                exact absurd rfl hdqne
            obtain ⟨r2, hr2⟩ := htq
            rw [List.cons_append] at hr2
            cases t with
            | nil => cases hr2
            | cons b t2 =>
              rw [List.cons.injEq] at hr2
              obtain ⟨hb, -⟩ := hr2
              subst hb
              rw [List.takeWhile_cons_of_pos had] at h0
              exact List.noConfusion h0
        · rw [if_neg h0] at h; cases h
      · rw [if_neg hs] at h
        rw [e2, if_neg hs, numBody, Bool.and_eq_true, decide_eq_true_eq] at hcq
        obtain ⟨hdqne, -⟩ := hcq
        by_cases h0 : (cq :: t).takeWhile isDigit = []
        · have hcd : isDigit cq = true := by
            by_cases hcd : isDigit cq
            · exact hcd
            · rw [List.takeWhile_cons_of_neg hcd] at hdqne
              exact absurd rfl hdqne
          rw [List.takeWhile_cons_of_pos hcd] at h0
          exact List.noConfusion h0
        · rw [if_neg h0] at h; cases h

theorem regexSearchNum_head {l p : List Char} (h : matchNumAt l = some p) :
    regexSearchNum l = some p := by
  cases l with
  | nil => cases h
  | cons c t =>
    have e : regexSearchNum (c :: t) =
        (match matchNumAt (c :: t) with
         | some p => some p
         | none => regexSearchNum t) := rfl
    rw [e, h]

theorem regexSearchNum_no_digit : ∀ l : List Char, (∀ c ∈ l, isDigit c = false) →
    regexSearchNum l = none := by
  intro l
  induction l with
  | nil => intro _; rfl
  | cons c t ih =>
    intro h
    have hm : matchNumAt (c :: t) = none := by
      rw [matchNumAt_cons]
      have htw : t.takeWhile isDigit = [] := by
        cases t with
        | nil => rfl
        | cons w t2 =>
          exact List.takeWhile_cons_of_neg
            (by simp [h w (List.mem_cons_of_mem c (List.mem_cons_self w t2))])
      have hctw : (c :: t).takeWhile isDigit = [] :=
        List.takeWhile_cons_of_neg (by simp [h c (List.mem_cons_self c t)])
      by_cases hs : isSign c = true
      · rw [if_pos hs, if_pos htw]
      · rw [if_neg hs, if_pos hctw]
    have e : regexSearchNum (c :: t) =
        (match matchNumAt (c :: t) with
         | some p => some p
         | none => regexSearchNum t) := rfl
    rw [e, hm]
    exact ih (fun x hx => h x (List.mem_cons_of_mem c hx))

/-- `Parse` on the numeral branch, case by case over the regex search and the
two numeric conversions. -/
theorem parse_num_cases {c : Char} {t : List Char} (hc : isNumStart c = true) :
    (regexSearchNum (c :: t) = none → Parse (c :: t) = (JsonObject.null, 0)) ∧
    (∀ m, regexSearchNum (c :: t) = some m →
      (∀ v, tryParseInt m = some v → Parse (c :: t) = (JsonObject.int v, m.length)) ∧
      (tryParseInt m = none → ∀ d, tryParseDouble m = some d →
        Parse (c :: t) = (JsonObject.double d, m.length)) ∧
      (tryParseInt m = none → tryParseDouble m = none →
        Parse (c :: t) = (JsonObject.null, 0))) := by
  have hff : (findFirstNotOf (c :: t)).getD 0 = 0 := by
    have e : findFirstNotOf (c :: t) =
        (if isWs c then (findFirstNotOf t).map (· + 1) else some 0) := rfl
    rw [e, numStart_not_ws hc, if_neg Bool.false_ne_true]
    rfl
  have ecore : parseCore (ParseF (c :: t).length) (c :: t) =
      (match regexSearchNum (c :: t) with
       | none => some ((JsonObject.null, 0), false)
       | some m =>
         match tryParseInt m with
         | some v => some ((JsonObject.int v, m.length), false)
         | none =>
           match tryParseDouble m with
           | some d => some ((JsonObject.double d, m.length), false)
           | none => some ((JsonObject.null, 0), false)) := by
    have e2 : parseCore (ParseF (c :: t).length) (c :: t) =
        (if isNumStart c then
          (match regexSearchNum (c :: t) with
           | none => some ((JsonObject.null, 0), false)
           | some m =>
             match tryParseInt m with
             | some v => some ((JsonObject.int v, m.length), false)
             | none =>
               match tryParseDouble m with
               | some d => some ((JsonObject.double d, m.length), false)
               | none => some ((JsonObject.null, 0), false))
         else if c = '"' then
          some ((JsonObject.str (strLoop t false).1, 1 + (strLoop t false).2), false)
         else if c = '[' then
          (listLoopF (ParseF (c :: t).length) (c :: t) (c :: t).length 1 [] false).map
            (fun r => ((JsonObject.list r.1, r.2.1), r.2.2))
         else if c = lbrace then
          (dictLoopF (ParseF (c :: t).length) (c :: t) (c :: t).length 1 [] false).map
            (fun r => ((JsonObject.dict r.1, r.2.1), r.2.2))
         else some ((JsonObject.null, 0), false)) := rfl
    rw [e2, if_pos hc]
  constructor
  · intro hnone
    rw [hnone] at ecore
    exact (parse_of_core hff ecore).1
  · intro m hm
    rw [hm] at ecore
    dsimp only at ecore
    refine ⟨?_, ?_, ?_⟩
    · intro v hv
      rw [hv] at ecore
      exact (parse_of_core hff ecore).1
    · intro hint d hd
      rw [hint, hd] at ecore
      exact (parse_of_core hff ecore).1
    · intro hint hd
      rw [hint, hd] at ecore
      exact (parse_of_core hff ecore).1

theorem parseF_sub_total (c : Char) (rest : List Char) :
    ∀ k, 1 ≤ k → (ParseF (c :: rest).length ((c :: rest).drop k)).isSome = true := by
  intro k hk
  have hlt : ((c :: rest).drop k).length < (c :: rest).length := by
    rw [List.length_drop]
    simp only [List.length_cons]
    omega
  exact (parseF_main _ _ rfl _ hlt).2

/-- Any input beginning with `'['` takes the list branch: the result value is
a `JsonObject.list` of the elements collected by the loop, and the consumed
count is the loop's final position. -/
theorem parse_list_shape (json : List Char) (h : json.head? = some '[') :
    ∃ l i fl, listLoopF (ParseF json.length) json json.length 1 [] false = some (l, i, fl) ∧
      Parse json = (JsonObject.list l, i) ∧ ParseOOB json = fl := by
  cases json with
  | nil => cases h
  | cons c rest =>
    injection h with h
    subst h
    obtain ⟨res, hres⟩ := Option.isSome_iff_exists.mp
      (listLoopF_total (parseF_sub_total '[' rest) _ 1 [] false (le_refl 1)
        (Nat.sub_le _ _))
    obtain ⟨l, i, fl⟩ := res
    have hcore : parseCore (ParseF ('[' :: rest).length) ('[' :: rest) =
        some ((JsonObject.list l, i), fl) := by
      have e2 : parseCore (ParseF ('[' :: rest).length) ('[' :: rest) =
          (listLoopF (ParseF ('[' :: rest).length) ('[' :: rest)
            ('[' :: rest).length 1 [] false).map
            (fun r => ((JsonObject.list r.1, r.2.1), r.2.2)) := rfl
      rw [e2, hres]
      rfl
    have hff : (findFirstNotOf ('[' :: rest)).getD 0 = 0 := rfl
    exact ⟨l, i, fl, hres, (parse_of_core hff hcore).1, (parse_of_core hff hcore).2⟩

/-- Any input beginning with `'{'` takes the dict branch: the result value is
a `JsonObject.dict` of the entries collected by the loop. -/
theorem parse_dict_shape (json : List Char) (h : json.head? = some lbrace) :
    ∃ d i fl, dictLoopF (ParseF json.length) json json.length 1 [] false = some (d, i, fl) ∧
      Parse json = (JsonObject.dict d, i) ∧ ParseOOB json = fl := by
  cases json with
  | nil => cases h
  | cons c rest =>
    injection h with h
    subst h
    obtain ⟨res, hres⟩ := Option.isSome_iff_exists.mp
      (dictLoopF_total (parseF_sub_total lbrace rest) _ 1 [] false (le_refl 1)
        (Nat.sub_le _ _))
    obtain ⟨d, i, fl⟩ := res
    have hcore : parseCore (ParseF (lbrace :: rest).length) (lbrace :: rest) =
        some ((JsonObject.dict d, i), fl) := by
      have e2 : parseCore (ParseF (lbrace :: rest).length) (lbrace :: rest) =
          (dictLoopF (ParseF (lbrace :: rest).length) (lbrace :: rest)
            (lbrace :: rest).length 1 [] false).map
            (fun r => ((JsonObject.dict r.1, r.2.1), r.2.2)) := rfl
      rw [e2, hres]
      rfl
    have hff : (findFirstNotOf (lbrace :: rest)).getD 0 = 0 := rfl
    exact ⟨d, i, fl, hres, (parse_of_core hff hcore).1, (parse_of_core hff hcore).2⟩

theorem parse_string (rest : List Char) :
    Parse ('"' :: rest) = (JsonObject.str (strLoop rest false).1, 1 + (strLoop rest false).2) := by
  have hff : (findFirstNotOf ('"' :: rest)).getD 0 = 0 := rfl
  have hcore : parseCore (ParseF ('"' :: rest).length) ('"' :: rest) =
      some ((JsonObject.str (strLoop rest false).1, 1 + (strLoop rest false).2), false) := rfl
  exact (parse_of_core hff hcore).1

/-! ### The claims -/

/-- Claim C4 (code bug): the claim says a literal NUL is treated as leading
whitespace like the other six characters, so `Parse` on NUL followed by "1"
should give `(Int 1, 2)`.  In the code the NUL in the `find_first_not_of`
set literal is truncated away by the `const char*` overload, so a leading
NUL falls through to the default branch: the code returns `(Null, 0)`,
while `"1"` alone parses as `(Int 1, 1)`. -/
theorem c4_nul_prefix_rejected :
    Parse (nulChar :: "1".toList) = (JsonObject.null, 0) ∧
    Parse ("1".toList) = (JsonObject.int 1, 1) := ⟨rfl, rfl⟩

/-- Claim C2 counterexample: the claim says `Parse("[")` must return
`consumedCount == 0`; the code returns the empty List with count 1 (the
loop body never runs and `i = 1` is returned). -/
theorem c2_counterexample :
    Parse ("[".toList) = (JsonObject.list [], 1) ∧ (Parse ("[".toList)).2 ≠ 0 :=
  ⟨rfl, by decide⟩

/-- Claim C2, amended: an unmatched opening bracket is *not* reported as a
failure at the outermost call; the loop stops at end-of-input and `Parse`
returns the collected container with `consumedCount` equal to the number of
characters consumed (`Parse("[") = (List [], 1)`, `Parse("{") = (Dict {}, 1)`,
`Parse("[1,2") = (List [1, 2], 4)`); `consumedCount == 0` arises only when an
inner element sub-parse fails, as in `Parse("[x") = (List [], 0)`. -/
theorem c2_unmatched_bracket_not_failure :
    Parse ("[".toList) = (JsonObject.list [], 1) ∧
    Parse [lbrace] = (JsonObject.dict [], 1) ∧
    Parse ("[1,2".toList) = (JsonObject.list [JsonObject.int 1, JsonObject.int 2], 4) ∧
    Parse ("[x".toList) = (JsonObject.list [], 0) :=
  ⟨rfl, rfl, rfl, rfl⟩

/-- Claim C8 (confirmed): `Parse("[42,[222,\"dasda]\",15],12,3,4]")` consumes
the whole input and yields the five-element List whose second element is the
three-element List `[222, "dasda]", 15]` — the `']'` inside the quoted string
does not terminate either list early. -/
theorem c8_nested_list_scenario :
    Parse ("[42,[222,\"dasda]\",15],12,3,4]".toList) =
      (JsonObject.list
        [JsonObject.int 42,
         JsonObject.list [JsonObject.int 222, JsonObject.str ("dasda]".toList),
           JsonObject.int 15],
         JsonObject.int 12, JsonObject.int 3, JsonObject.int 4],
       ("[42,[222,\"dasda]\",15],12,3,4]".toList).length) := rfl

/-- Claim C9 (code bug): on `"[1,2"` the final element ends exactly at
end-of-input (`i = 4 = json.size()`), and the comma look-ahead
`json[i] == ','` at line 153 reads one position past the end of the
`string_view` — `ParseOOB` records the access; on the well-terminated
`"[1,2]"` no such access occurs. -/
theorem c9_out_of_bounds_read :
    ParseOOB ("[1,2".toList) = true ∧ ParseOOB ("[1,2]".toList) = false ∧
    Parse ("[1,2".toList) = (JsonObject.list [JsonObject.int 1, JsonObject.int 2], 4) :=
  ⟨rfl, rfl, rfl⟩

/-- Claim C10 (confirmed): `Parse` terminates on every finite input — the
fuelled interpreter `ParseF` never runs out of fuel when given
`json.length + 1` (each recursive call receives a strictly shorter suffix and
each executed loop iteration strictly advances the scan position, which is
the content of `parseF_main`). -/
theorem c10_terminates (json : List Char) : (ParseF (json.length + 1) json).isSome = true :=
  (parseF_main json.length json rfl (json.length + 1) (Nat.lt_succ_self _)).2

/-- The dict literal with duplicate key: `{"a":1,"a":2}`, built character by
character (braces written via `lbrace`/`rbrace`). -/
def c7Input : List Char :=
  [lbrace, '"', 'a', '"', ':', '1', ',', '"', 'a', '"', ':', '2', rbrace]

/-- Claim C7 (confirmed): parsing the duplicate-key dict literal yields a
Dict where key "a" maps to Int 1 (the first value), consuming all 13
characters; in general `try_emplace` never overwrites an existing entry
(first write wins). -/
theorem c7_first_write_wins :
    Parse c7Input = (JsonObject.dict [("a".toList, JsonObject.int 1)], 13) ∧
    ∀ (d : List (List Char × JsonObject)) (k : List Char) (v : JsonObject),
      (d.lookup k).isSome = true → tryEmplace d k v = d := by
  constructor
  · rfl
  · intro d k v h
    have e : tryEmplace d k v =
        (match d.lookup k with
         | some _ => d
         | none => d ++ [(k, v)]) := rfl
    cases hl : d.lookup k with
    | none => rw [hl] at h; cases h
    | some u => rw [e, hl]

/-- Witness for claim C7: inserting key "a" again does not overwrite the
existing entry. -/
theorem c7_first_write_wins_witness :
    tryEmplace [("a".toList, JsonObject.int 1)] ("a".toList) (JsonObject.int 2) =
      [("a".toList, JsonObject.int 1)] :=
  c7_first_write_wins.2 _ _ _ rfl

/-- Claim C1 counterexample: the claim says that when an element sub-parse
fails the enclosing `Parse` returns `consumedCount == 0` *with the Value
Null, discarding collected elements*; on `"[1,x]"` the code does return
count 0 but the accompanying value is the partial List `[1]` — not Null. -/
theorem c1_counterexample :
    Parse ("[1,x]".toList) = (JsonObject.list [JsonObject.int 1], 0) ∧
    (Parse ("[1,x]".toList)).1.isNull = false := ⟨rfl, rfl⟩

/-- The dict literal `{"a":1,x}` whose second key sub-parse fails. -/
def c1DictInput : List Char := [lbrace, '"', 'a', '"', ':', '1', ',', 'x', rbrace]

/-- Claim C1, amended: when an element (or key/value) sub-parse fails, the
enclosing `Parse` does return `consumedCount == 0`, but the accompanying
Value is the partially built List (resp. Dict) holding the elements or
entries already collected — never Null: every input starting with `'['`
yields a List value and every input starting with `'{'` yields a Dict value,
and on the failing inputs `"[1,x]"` and `{"a":1,x}` the collected element
`1` (resp. entry `"a" ↦ 1`) is returned alongside count 0. -/
theorem c1_failure_partial_container :
    (∀ json : List Char, json.head? = some '[' → ∃ l, (Parse json).1 = JsonObject.list l) ∧
    (∀ json : List Char, json.head? = some lbrace → ∃ d, (Parse json).1 = JsonObject.dict d) ∧
    Parse ("[1,x]".toList) = (JsonObject.list [JsonObject.int 1], 0) ∧
    Parse c1DictInput = (JsonObject.dict [("a".toList, JsonObject.int 1)], 0) := by
  refine ⟨?_, ?_, rfl, rfl⟩
  · intro json h
    obtain ⟨l, i, fl, -, hP, -⟩ := parse_list_shape json h
    exact ⟨l, by rw [hP]⟩
  · intro json h
    obtain ⟨d, i, fl, -, hP, -⟩ := parse_dict_shape json h
    exact ⟨d, by rw [hP]⟩

/-- Witness for claim C1: the general container-shape parts applied to the
concrete failing inputs. -/
theorem c1_failure_partial_container_witness :
    (∃ l, (Parse ("[1,x]".toList)).1 = JsonObject.list l) ∧
    (∃ d, (Parse c1DictInput).1 = JsonObject.dict d) :=
  ⟨c1_failure_partial_container.1 ("[1,x]".toList) rfl,
   c1_failure_partial_container.2.1 c1DictInput rfl⟩

/-- Claim C6 (confirmed): for an input that starts with `'"'` and has no
closing unescaped quote after it, `Parse` does not fail: it returns a String
whose content is the whole scanned tail, escape-decoded, with
`consumedCount` equal to the full input length. -/
theorem c6_unterminated_string (rest : List Char) (h : noUnescQuote rest = true) :
    Parse ('"' :: rest) = (JsonObject.str (decodeAll rest), ('"' :: rest).length) := by
  rw [parse_string, strLoop_no_close rest.length rest rfl h]
  show (JsonObject.str (decodeAll rest), 1 + rest.length) =
    (JsonObject.str (decodeAll rest), rest.length + 1)
  rw [Nat.add_comm]

/-- Witness for claim C6: the unterminated string `"a` (with a trailing
backslash case covered by the escape-decoder) parses to content "a" and
consumes both characters. -/
theorem c6_unterminated_string_witness :
    Parse ('"' :: ['a', '\\']) = (JsonObject.str (decodeAll ['a', '\\']),
      ('"' :: ['a', '\\']).length) :=
  c6_unterminated_string ['a', '\\'] (by decide)

/-- Claim C5 (confirmed): prefixing any accepted input (`consumedCount > 0`)
with a nonempty string of characters from the set containing space, LF, CR
and TAB yields the same parsed Value with `consumedCount` increased by
exactly the whitespace length. -/
theorem c5_whitespace_insensitive (w s : List Char) (hw : w ≠ [])
    (hws : ∀ x ∈ w, x = ' ' ∨ x = '\n' ∨ x = '\r' ∨ x = '\t')
    (hs : 0 < (Parse s).2) :
    (Parse (w ++ s)).1 = (Parse s).1 ∧ (Parse (w ++ s)).2 = (Parse s).2 + w.length := by
  have hwss : ∀ x ∈ w, isWs x = true := by
    intro x hx
    rcases hws x hx with rfl | rfl | rfl | rfl <;> decide
  obtain ⟨m, hm⟩ : ∃ m, w.length = m + 1 := by
    cases w with
    | nil => exact absurd rfl hw
    | cons a b => exact ⟨b.length, rfl⟩
  cases hoff : findFirstNotOf s with
  | none =>
    rw [parse_allWs (ffno_none_iff.mp hoff)] at hs
    exact absurd hs (by decide)
  | some off =>
    have happ : findFirstNotOf (w ++ s) = some (off + w.length) := by
      rw [ffno_ws_append w s hwss, hoff]
      rfl
    cases off with
    | zero =>
      have happ2 : findFirstNotOf (w ++ s) = some (m + 1) := by
        rw [happ]
        congr 1
        omega
      obtain ⟨hP, -⟩ := parse_ws happ2
      have hdrop : (w ++ s).drop (m + 1) = s := by
        rw [← hm]
        exact List.drop_left w s
      rw [hdrop] at hP
      rw [hP]
      constructor
      · rfl
      · show (Parse s).2 + (m + 1) = (Parse s).2 + w.length
        omega
    | succ k =>
      obtain ⟨hPs, -⟩ := parse_ws hoff
      have happ2 : findFirstNotOf (w ++ s) = some (k + w.length + 1) := by
        rw [happ]
        congr 1
        omega
      obtain ⟨hPws, -⟩ := parse_ws happ2
      have hdrop : (w ++ s).drop (k + w.length + 1) = s.drop (k + 1) := by
        rw [drop_append_general, List.drop_eq_nil_of_le (by omega), List.nil_append]
        congr 1
        omega
      rw [hdrop] at hPws
      rw [hPws]
      constructor
      · rw [hPs]
      · rw [hPs]
        show (Parse (s.drop (k + 1))).2 + (k + w.length + 1) =
          (Parse (s.drop (k + 1))).2 + (k + 1) + w.length
        omega

/-- Witness for claim C5: a single blank before "1". -/
theorem c5_whitespace_insensitive_witness :
    (Parse ([' '] ++ "1".toList)).1 = (Parse ("1".toList)).1 ∧
    (Parse ([' '] ++ "1".toList)).2 = (Parse ("1".toList)).2 + [' '].length :=
  c5_whitespace_insensitive [' '] ("1".toList) (by decide)
    (by intro x hx; simp at hx; subst hx; exact Or.inl rfl) (by decide)

/-- Claim C3 counterexample: the claim says that in the numeral branch the
interpreted text is the longest *prefix* conforming to
`[+-]?digits(.digits?)?([eE][+-]?digits)?`, with `(Null, 0)` when no such
prefix exists and `consumedCount` equal to the prefix length otherwise.
On `"+a1"` no nonempty prefix conforms, yet `Parse` returns `(Int 1, 1)` —
the unanchored `regex_search` found the `1` at offset 2 and its length was
used as the count.  On `"+5"` the whole input is a conforming prefix of
length 2, yet `Parse` returns `(Null, 0)` — `from_chars` rejects the leading
`'+'` for both `int` and `double`. -/
theorem c3_counterexample :
    ((∀ q ∈ ("+a1".toList).inits, conformsNum q = false) ∧
      Parse ("+a1".toList) = (JsonObject.int 1, 1)) ∧
    (conformsNum ("+5".toList) = true ∧ Parse ("+5".toList) = (JsonObject.null, 0)) :=
  ⟨⟨by decide, rfl⟩, by decide, rfl⟩

/-- Claim C3, amended: in the numeral branch, when some nonempty prefix of
the input conforms to `[+-]?digits(.digits?)?([eE][+-]?digits)?`, the text
matched is the longest such prefix; if the integer converter accepts it the
result is that Int with `consumedCount` equal to the prefix length,
otherwise the floating converter is tried (it rejects a leading `'+'` and
any text whose correctly rounded binary64 value is infinite, or zero while
the exact value is nonzero — `from_chars` then reports
`result_out_of_range`), yielding Double with the same count on success;
`(Null, 0)` results when both converters reject the text.  When no digit
occurs anywhere in the input, `Parse` returns `(Null, 0)`.  When no prefix
conforms but a digit occurs later, the unanchored `regex_search` instead
hands the leftmost conforming substring to the same converters, so
`consumedCount` desynchronises from the input position and `(Null, 0)` can
also arise with digits present: `Parse("+a1") = (Int 1, 1)` and
`Parse("-+5") = (Null, 0)` (the leftmost match `"+5"` is rejected by both
converters). -/
theorem c3_longest_prefix_amended :
    ((∀ (c : Char) (t p : List Char), isNumStart c = true →
      p ∈ (c :: t).inits → conformsNum p = true →
      (∀ q ∈ (c :: t).inits, conformsNum q = true → q.length ≤ p.length) →
      (∀ v, tryParseInt p = some v → Parse (c :: t) = (JsonObject.int v, p.length)) ∧
      (tryParseInt p = none → ∀ d, tryParseDouble p = some d →
        Parse (c :: t) = (JsonObject.double d, p.length)) ∧
      (tryParseInt p = none → tryParseDouble p = none →
        Parse (c :: t) = (JsonObject.null, 0))) ∧
    (∀ (c : Char) (t : List Char), isNumStart c = true →
      (∀ x ∈ c :: t, isDigit x = false) → Parse (c :: t) = (JsonObject.null, 0))) ∧
    (Parse ("+a1".toList) = (JsonObject.int 1, 1) ∧
      Parse ("-+5".toList) = (JsonObject.null, 0)) := by
  refine ⟨⟨?_, ?_⟩, rfl, rfl⟩
  · intro c t p hc hp hconf hmax
    have hp1 : p <+: (c :: t) := (List.mem_inits p (c :: t)).mp hp
    cases hm : matchNumAt (c :: t) with
    | none => exact (matchNumAt_none hm p hp1 hconf).elim
    | some p0 =>
      obtain ⟨hp0pre, hp0conf⟩ := matchNumAt_sound hm
      have h1 : p0.length ≤ p.length := hmax p0 ((List.mem_inits p0 (c :: t)).mpr hp0pre) hp0conf
      have h2 : p.length ≤ p0.length := matchNumAt_longest hm p hp1 hconf
      have hpp0 : p = p0 := by
        have e1 : p = (c :: t).take p.length := List.prefix_iff_eq_take.mp hp1
        have e2 : p0 = (c :: t).take p0.length := List.prefix_iff_eq_take.mp hp0pre
        have hlen : p.length = p0.length := Nat.le_antisymm h2 h1
        rw [e1, e2, hlen]
      have hsearch : regexSearchNum (c :: t) = some p := by
        rw [hpp0]
        exact regexSearchNum_head hm
      exact (parse_num_cases hc).2 p hsearch
  · intro c t hc hnd
    exact (parse_num_cases hc).1 (regexSearchNum_no_digit (c :: t) hnd)

set_option exponentiation.threshold 4000 in
set_option maxRecDepth 20000 in
/-- Witness for claim C3 (amended): on "12a" the longest conforming prefix
is "12", accepted by the integer converter, so `Parse` yields
`(Int 12, 2)`; on "2.5x" the longest conforming prefix is "2.5", rejected
by the integer converter and accepted by the in-range floating converter,
so `Parse` yields `(Double "2.5", 3)`; on the digit-free input "+" the
branch fails with `(Null, 0)`. -/
theorem c3_longest_prefix_amended_witness :
    Parse ("12a".toList) = (JsonObject.int 12, 2) ∧
    Parse ("2.5x".toList) = (JsonObject.double ("2.5".toList), 3) ∧
    Parse ("+".toList) = (JsonObject.null, 0) :=
  ⟨(c3_longest_prefix_amended.1.1 '1' ("2a".toList) ("12".toList) (by decide) (by decide)
      (by decide) (by decide)).1 12 (by decide),
   (c3_longest_prefix_amended.1.1 '2' (".5x".toList) ("2.5".toList) (by decide) (by decide)
      (by decide) (by decide)).2.1 (by decide) ("2.5".toList) (by decide),
   c3_longest_prefix_amended.1.2 '+' [] (by decide) (by decide)⟩
